import Mathlib

/-!
# Verification of the VisualPDE data-generation pipeline (datagen)

Shallow embedding of the orchestration / resource-pool subsystem:

* `src/datagen/browser-pool.ts`   — `BrowserPool` (pool model below)
* `src/datagen/simulation-runner.ts` — `SimulationRunner.run` (runner model)
* `src/datagen/orchestrator.ts`   — `Orchestrator.runWithRetry` / `runBatch`

JavaScript numbers that the claims never do real arithmetic on are
abstracted as `Int`/`Nat`; fallible calls are modelled with `Except`/`Option`
or with explicit boolean outcome oracles; the mutable heap (the intervention
objects mutated in place) is modelled with an explicit index-addressed store.
-/

/-! ## Association lists

Model of the JavaScript `Map` used for `simCountPerBrowser`
(insertion order preserved, `set` replaces in place, `delete` removes). -/

def alookup : List (Nat × Nat) → Nat → Option Nat
  | [], _ => none
  | (k0, v0) :: rest, k => if k0 = k then some v0 else alookup rest k

def aset : List (Nat × Nat) → Nat → Nat → List (Nat × Nat)
  | [], k, v => [(k, v)]
  | (k0, v0) :: rest, k, v =>
      if k0 = k then (k, v) :: rest else (k0, v0) :: aset rest k v

def aremove : List (Nat × Nat) → Nat → List (Nat × Nat)
  | [], _ => []
  | (k0, v0) :: rest, k => if k0 = k then rest else (k0, v0) :: aremove rest k

theorem alookup_aset (l : List (Nat × Nat)) (k v : Nat) :
    alookup (aset l k v) k = some v := by
  induction l with
  | nil => simp [aset, alookup]
  | cons hd tl ih =>
      obtain ⟨k0, v0⟩ := hd
      by_cases h : k0 = k <;> simp [aset, alookup, h, ih]

theorem mem_aset (k v : Nat) :
    ∀ (l : List (Nat × Nat)) (q : Nat × Nat),
      q ∈ aset l k v → q = (k, v) ∨ q ∈ l := by
  intro l
  induction l with
  | nil =>
      intro q hq
      left
      simpa [aset] using hq
  | cons hd tl ih =>
      obtain ⟨k0, v0⟩ := hd
      intro q hq
      by_cases h : k0 = k
      · simp only [aset, if_pos h] at hq
        rcases List.mem_cons.mp hq with rfl | hq
        · exact Or.inl rfl
        · exact Or.inr (List.mem_cons_of_mem _ hq)
      · simp only [aset, if_neg h] at hq
        rcases List.mem_cons.mp hq with rfl | hq
        · exact Or.inr (List.mem_cons_self _ _)
        · rcases ih q hq with h1 | h1
          · exact Or.inl h1
          · exact Or.inr (List.mem_cons_of_mem _ h1)

theorem mem_aremove (k : Nat) :
    ∀ (l : List (Nat × Nat)) (q : Nat × Nat), q ∈ aremove l k → q ∈ l := by
  intro l
  induction l with
  | nil =>
      intro q hq
      simpa [aremove] using hq
  | cons hd tl ih =>
      obtain ⟨k0, v0⟩ := hd
      intro q hq
      by_cases h : k0 = k
      · simp only [aremove, if_pos h] at hq
        exact List.mem_cons_of_mem _ hq
      · simp only [aremove, if_neg h] at hq
        rcases List.mem_cons.mp hq with rfl | hq
        · exact List.mem_cons_self _ _
        · exact List.mem_cons_of_mem _ (ih q hq)

theorem alookup_mem (k v : Nat) :
    ∀ (l : List (Nat × Nat)), alookup l k = some v → (k, v) ∈ l := by
  intro l
  induction l with
  | nil => intro h; simp [alookup] at h
  | cons hd tl ih =>
      obtain ⟨k0, v0⟩ := hd
      intro h
      by_cases hk : k0 = k
      · simp only [alookup, if_pos hk] at h
        obtain rfl : v0 = v := Option.some.inj h
        subst hk
        exact List.mem_cons_self _ _
      · simp only [alookup, if_neg hk] at h
        exact List.mem_cons_of_mem _ (ih h)

/-- The keys of an association list, in order. -/
def akeys (l : List (Nat × Nat)) : List Nat := l.map Prod.fst

theorem mem_akeys_of_mem {l : List (Nat × Nat)} {q : Nat × Nat} (h : q ∈ l) :
    q.1 ∈ akeys l := List.mem_map_of_mem Prod.fst h

theorem akeys_aset (l : List (Nat × Nat)) (k v : Nat) :
    akeys (aset l k v) = akeys l ∨
      (akeys (aset l k v) = akeys l ++ [k] ∧ k ∉ akeys l) := by
  induction l with
  | nil => right; simp [aset, akeys]
  | cons hd tl ih =>
      obtain ⟨k0, v0⟩ := hd
      by_cases h : k0 = k
      · left; simp [aset, akeys, h]
      · rcases ih with h1 | ⟨h1, h2⟩
        · left
          simp only [aset, if_neg h, akeys, List.map_cons] at h1 ⊢
          rw [h1]
        · right
          constructor
          · simp only [aset, if_neg h, akeys, List.map_cons] at h1 ⊢
            rw [h1]
            simp
          · simp only [akeys, List.map_cons, List.mem_cons] at h2 ⊢
            exact fun hc => hc.elim (fun hk => h hk.symm) h2

theorem aremove_sublist (l : List (Nat × Nat)) (k : Nat) :
    List.Sublist (aremove l k) l := by
  induction l with
  | nil => simp [aremove]
  | cons hd tl ih =>
      obtain ⟨k0, v0⟩ := hd
      by_cases h : k0 = k
      · simpa [aremove, h] using List.sublist_cons_self _ _
      · simpa [aremove, h] using ih.cons₂ (k0, v0)

theorem akeys_nodup_aset {l : List (Nat × Nat)} (k v : Nat)
    (h : (akeys l).Nodup) : (akeys (aset l k v)).Nodup := by
  rcases akeys_aset l k v with h1 | ⟨h1, h2⟩
  · rw [h1]; exact h
  · rw [h1]
    simpa [List.nodup_append] using ⟨h, h2⟩

theorem akeys_nodup_aremove {l : List (Nat × Nat)} (k : Nat)
    (h : (akeys l).Nodup) : (akeys (aremove l k)).Nodup :=
  ((aremove_sublist l k).map Prod.fst).nodup h

theorem mem_aremove_key_ne {k : Nat} :
    ∀ {l : List (Nat × Nat)} {q : Nat × Nat},
      (akeys l).Nodup → q ∈ aremove l k → q.1 ≠ k := by
  intro l
  induction l with
  | nil => intro q _ hq; simp [aremove] at hq
  | cons hd tl ih =>
      obtain ⟨k0, v0⟩ := hd
      intro q hnd hq
      simp only [akeys, List.map_cons, List.nodup_cons] at hnd
      by_cases h : k0 = k
      · subst h
        simp only [aremove, if_pos rfl] at hq
        intro hk
        exact hnd.1 (hk ▸ mem_akeys_of_mem hq)
      · simp only [aremove, if_neg h] at hq
        rcases List.mem_cons.mp hq with rfl | hq
        · simpa using h
        · exact ih (by simpa [akeys] using hnd.2) hq

/-! ## Browser pool model (`src/datagen/browser-pool.ts`)

Browsers and pages are identified by `Nat` ids; a page keeps a reference
to its owning browser (`page.browser()` in puppeteer).  `nextBrowserId` /
`nextPageId` supply fresh ids for `launchBrowser` / `createPage`. -/

structure PoolPage where
  pageId : Nat
  browserId : Nat
deriving DecidableEq, Repr

/-- The parts of `BrowserPoolConfig` that the pool logic reads.
`maxSimsPerBrowser` is optional in the source (`maxSimsPerBrowser?: number`);
`none` models the field being absent. -/
structure PoolConfig where
  poolSize : Nat
  maxSimsPerBrowser : Option Nat
deriving Repr

/-- `this.config.maxSimsPerBrowser || 50`: JavaScript `||` takes the
right operand when the left operand is falsy, i.e. `undefined` or `0`. -/
def recycleThreshold (cfg : PoolConfig) : Nat :=
  match cfg.maxSimsPerBrowser with
  | none => 50
  | some 0 => 50
  | some (n + 1) => n + 1

theorem recycleThreshold_pos (cfg : PoolConfig) : 1 ≤ recycleThreshold cfg := by
  obtain ⟨ps, ms⟩ := cfg
  rcases ms with _ | m
  · show 1 ≤ 50; omega
  · rcases m with _ | m
    · show 1 ≤ 50; omega
    · show 1 ≤ m + 1; omega

/-- Mutable fields of the `BrowserPool` class. -/
structure PoolState where
  browsers : List Nat
  availablePages : List PoolPage
  busyPages : List PoolPage
  simCount : List (Nat × Nat)
  isShuttingDown : Bool
  nextBrowserId : Nat
  nextPageId : Nat
deriving Repr

/-- `initialize()`: spawns `poolSize` browsers, one page each, sim counters 0. -/
def initPool (n : Nat) : PoolState :=
  { browsers := List.range n
    availablePages := (List.range n).map (fun i => ⟨i, i⟩)
    busyPages := []
    simCount := (List.range n).map (fun i => (i, 0))
    isShuttingDown := false
    nextBrowserId := n
    nextPageId := n }

inductive AcquireRes
  | blocked
  | poolShuttingDown
  | acquired (p : PoolPage) (s : PoolState)

/-- `acquirePage()`: the wait loop spins while no page is available and the
pool is not shutting down; after the loop it throws if shutting down,
otherwise `pop()`s the *last* available page and adds it to the busy set.
`blocked` models the caller still suspended in the wait loop. -/
def acquirePage (s : PoolState) : AcquireRes :=
  if s.isShuttingDown then .poolShuttingDown
  else
    match s.availablePages.getLast? with
    | none => .blocked
    | some p =>
        .acquired p
          { s with
            availablePages := s.availablePages.dropLast
            busyPages := p :: s.busyPages }

/-- State after `restartBrowser(oldBrowser, oldPage)` (called from
`releasePage` when the sim counter reached the threshold): the old browser
is spliced out of `browsers` and its counter entry deleted, a fresh browser
is launched with counter 0, and a fresh page on it is pushed to the
available list.  `sc` is the counter map as already updated by
`releasePage` (`set(browser, count)`). -/
def restartedState (s : PoolState) (b : Nat) (busy : List PoolPage)
    (sc : List (Nat × Nat)) : PoolState :=
  { browsers := (s.browsers.erase b) ++ [s.nextBrowserId]
    availablePages := s.availablePages ++ [⟨s.nextPageId, s.nextBrowserId⟩]
    busyPages := busy
    simCount := aset (aremove sc b) s.nextBrowserId 0
    isShuttingDown := s.isShuttingDown
    nextBrowserId := s.nextBrowserId + 1
    nextPageId := s.nextPageId + 1 }

/-- `releasePage(page)`: removes the page from the busy set, increments the
owning browser's sim counter, restarts the browser once the counter reaches
`maxSimsPerBrowser || 50`, otherwise navigates the page to `about:blank`
and pushes it back — on a reset failure (`resetOk = false`) a fresh page on
the same browser is pushed instead.  The returned `Bool` reports whether a
restart (recycle event) happened. -/
def releasePage (cfg : PoolConfig) (s : PoolState) (p : PoolPage)
    (resetOk : Bool) : PoolState × Bool :=
  if recycleThreshold cfg ≤ (alookup s.simCount p.browserId).getD 0 + 1 then
    (restartedState s p.browserId (s.busyPages.erase p)
      (aset s.simCount p.browserId ((alookup s.simCount p.browserId).getD 0 + 1)),
     true)
  else if resetOk then
    ({ s with
       busyPages := s.busyPages.erase p
       simCount := aset s.simCount p.browserId
         ((alookup s.simCount p.browserId).getD 0 + 1)
       availablePages := s.availablePages ++ [p] }, false)
  else
    ({ s with
       busyPages := s.busyPages.erase p
       simCount := aset s.simCount p.browserId
         ((alookup s.simCount p.browserId).getD 0 + 1)
       availablePages := s.availablePages ++ [⟨s.nextPageId, p.browserId⟩]
       nextPageId := s.nextPageId + 1 }, false)

/-- Reachable pool states: initialized, then any interleaving of successful
acquires, releases of a busy page, the shutdown flag being set, and the
final force-close of `shutdown()`. -/
inductive PoolReach (cfg : PoolConfig) : PoolState → Prop where
  | init : PoolReach cfg (initPool cfg.poolSize)
  | acquire {s p s2} : PoolReach cfg s → acquirePage s = .acquired p s2 →
      PoolReach cfg s2
  | release {s} (p : PoolPage) (resetOk : Bool) : PoolReach cfg s →
      p ∈ s.busyPages → PoolReach cfg (releasePage cfg s p resetOk).1
  | beginShutdown {s} : PoolReach cfg s →
      PoolReach cfg { s with isShuttingDown := true }
  | finishShutdown {s} : PoolReach cfg s →
      PoolReach cfg { s with browsers := [], availablePages := [], busyPages := [] }

theorem acquirePage_acquired {s : PoolState} {p : PoolPage} {s2 : PoolState}
    (h : acquirePage s = .acquired p s2) :
    s.isShuttingDown = false ∧ s.availablePages = s2.availablePages ++ [p] ∧
      s2.busyPages = p :: s.busyPages ∧ s2.simCount = s.simCount ∧
      s2.isShuttingDown = s.isShuttingDown ∧
      s2.nextBrowserId = s.nextBrowserId := by
  unfold acquirePage at h
  split at h
  · exact absurd h (by simp)
  next hsd =>
    split at h
    · exact absurd h (by simp)
    next q hlast =>
      obtain ⟨rfl, rfl⟩ : q = p ∧ _ = s2 := by
        injection h with h1 h2
        exact ⟨h1, h2⟩
      refine ⟨by simpa using hsd, ?_, rfl, rfl, rfl, rfl⟩
      exact (List.dropLast_append_getLast? q hlast).symm

/-- Invariant: the number of pages (available plus busy) never exceeds the
pool size. -/
theorem pool_size_invariant {cfg : PoolConfig} {s : PoolState}
    (h : PoolReach cfg s) :
    s.availablePages.length + s.busyPages.length ≤ cfg.poolSize := by
  induction h with
  | init => simp [initPool]
  | @acquire s1 p s2 _ hacq ih =>
      obtain ⟨-, havail, hbusy, -, -, -⟩ := acquirePage_acquired hacq
      rw [hbusy]
      have hlen : s1.availablePages.length = s2.availablePages.length + 1 := by
        rw [havail]; simp
      simp only [List.length_cons]
      omega
  | @release s1 p resetOk _ hmem ih =>
      have herase : ((s1.busyPages.erase p).length) + 1 = s1.busyPages.length :=
        List.length_erase_add_one hmem
      unfold releasePage
      split
      · simp only [restartedState, List.length_append, List.length_cons,
          List.length_nil]
        omega
      · split
        · simp only [List.length_append, List.length_cons, List.length_nil]
          omega
        · simp only [List.length_append, List.length_cons, List.length_nil]
          omega
  | beginShutdown _ ih => simpa using ih
  | finishShutdown _ ih => simp

/-- Invariant: sim-counter keys are unique, and every browser id in use
(counter keys, available pages, busy pages) is below the fresh-id counter,
so freshly launched browsers never collide with existing ones. -/
theorem pool_fresh_invariant {cfg : PoolConfig} {s : PoolState}
    (h : PoolReach cfg s) :
    (akeys s.simCount).Nodup ∧
      (∀ q ∈ s.simCount, q.1 < s.nextBrowserId) ∧
      (∀ p ∈ s.availablePages, p.browserId < s.nextBrowserId) ∧
      (∀ p ∈ s.busyPages, p.browserId < s.nextBrowserId) := by
  induction h with
  | init =>
      refine ⟨?_, ?_, ?_, ?_⟩
      · simp only [initPool, akeys, List.map_map]
        have hid : (Prod.fst ∘ fun i : Nat => (i, 0)) = id := rfl
        rw [hid, List.map_id]
        exact List.nodup_range _
      · intro q hq
        simp only [initPool, List.mem_map] at hq
        obtain ⟨i, hi, rfl⟩ := hq
        simpa [initPool] using List.mem_range.mp hi
      · intro p hp
        simp only [initPool, List.mem_map] at hp
        obtain ⟨i, hi, rfl⟩ := hp
        simpa [initPool] using List.mem_range.mp hi
      · intro p hp; simp [initPool] at hp
  | @acquire s1 p s2 _ hacq ih =>
      obtain ⟨-, havail, hbusy, hsim, -, hnb⟩ := acquirePage_acquired hacq
      obtain ⟨ih1, ih2, ih3, ih4⟩ := ih
      refine ⟨by rw [hsim]; exact ih1, ?_, ?_, ?_⟩
      · intro q hq
        rw [hnb]
        exact ih2 q (by rwa [← hsim])
      · intro q hq
        rw [hnb]
        exact ih3 q (by rw [havail]; exact List.mem_append_left _ hq)
      · intro q hq
        rw [hbusy] at hq
        rw [hnb]
        rcases List.mem_cons.mp hq with rfl | hq
        · exact ih3 _ (by rw [havail]; simp)
        · exact ih4 _ hq
  | @release s1 p resetOk _ hmem ih =>
      obtain ⟨ih1, ih2, ih3, ih4⟩ := ih
      have hb : p.browserId < s1.nextBrowserId := ih4 p hmem
      unfold releasePage
      split
      · simp only [restartedState]
        refine ⟨?_, ?_, ?_, ?_⟩
        · exact akeys_nodup_aset _ _
            (akeys_nodup_aremove _ (akeys_nodup_aset _ _ ih1))
        · intro q hq
          rcases mem_aset _ _ _ _ hq with rfl | hq2
          · simp
          · have hq3 := mem_aremove _ _ _ hq2
            rcases mem_aset _ _ _ _ hq3 with rfl | hq4
            · simp only
              omega
            · have := ih2 q hq4
              omega
        · intro q hq
          rcases List.mem_append.mp hq with hq | hq
          · have := ih3 q hq; omega
          · simp only [List.mem_singleton] at hq
            subst hq; simp
        · intro q hq
          have := ih4 q ((List.erase_sublist p s1.busyPages).mem hq)
          omega
      · split
        · refine ⟨akeys_nodup_aset _ _ ih1, ?_, ?_, ?_⟩
          · intro q hq
            rcases mem_aset _ _ _ _ hq with rfl | hq2
            · exact hb
            · exact ih2 q hq2
          · intro q hq
            rcases List.mem_append.mp hq with hq | hq
            · exact ih3 q hq
            · simp only [List.mem_singleton] at hq
              subst hq; exact hb
          · intro q hq
            exact ih4 q ((List.erase_sublist p s1.busyPages).mem hq)
        · refine ⟨akeys_nodup_aset _ _ ih1, ?_, ?_, ?_⟩
          · intro q hq
            rcases mem_aset _ _ _ _ hq with rfl | hq2
            · exact hb
            · exact ih2 q hq2
          · intro q hq
            rcases List.mem_append.mp hq with hq | hq
            · exact ih3 q hq
            · simp only [List.mem_singleton] at hq
              subst hq; exact hb
          · intro q hq
            exact ih4 q ((List.erase_sublist p s1.busyPages).mem hq)
  | beginShutdown _ ih => simpa using ih
  | finishShutdown _ ih =>
      obtain ⟨ih1, ih2, -, -⟩ := ih
      exact ⟨ih1, ih2, by simp, by simp⟩

/-- Invariant: every browser's sim counter stays strictly below the recycle
threshold (a browser is torn down the moment its counter reaches it). -/
theorem pool_count_invariant {cfg : PoolConfig} {s : PoolState}
    (h : PoolReach cfg s) :
    ∀ q ∈ s.simCount, q.2 < recycleThreshold cfg := by
  induction h with
  | init =>
      intro q hq
      simp only [initPool, List.mem_map] at hq
      obtain ⟨i, -, rfl⟩ := hq
      exact recycleThreshold_pos cfg
  | @acquire s1 p s2 _ hacq ih =>
      obtain ⟨-, -, -, hsim, -, -⟩ := acquirePage_acquired hacq
      rw [hsim]; exact ih
  | @release s1 p resetOk hreach hmem ih =>
      have hnd : (akeys (aset s1.simCount p.browserId
          ((alookup s1.simCount p.browserId).getD 0 + 1))).Nodup :=
        akeys_nodup_aset _ _ (pool_fresh_invariant hreach).1
      intro q hq
      unfold releasePage at hq
      split at hq
      · simp only [restartedState] at hq
        rcases mem_aset _ _ _ _ hq with rfl | hq2
        · exact recycleThreshold_pos cfg
        · have hne := mem_aremove_key_ne hnd hq2
          have hq3 := mem_aremove _ _ _ hq2
          rcases mem_aset _ _ _ _ hq3 with rfl | hq4
          · exact absurd rfl hne
          · exact ih _ hq4
      · next hlt =>
          split at hq
          · rcases mem_aset _ _ _ _ hq with rfl | hq2
            · simpa using Nat.lt_of_not_le hlt
            · exact ih _ hq2
          · rcases mem_aset _ _ _ _ hq with rfl | hq2
            · simpa using Nat.lt_of_not_le hlt
            · exact ih _ hq2
  | beginShutdown _ ih => simpa using ih
  | finishShutdown _ ih => simpa using ih

theorem releasePage_snd_iff (cfg : PoolConfig) (s : PoolState) (p : PoolPage)
    (resetOk : Bool) :
    (releasePage cfg s p resetOk).2 = true ↔
      recycleThreshold cfg ≤ (alookup s.simCount p.browserId).getD 0 + 1 := by
  unfold releasePage
  split
  · next hcond => simpa using hcond
  · next hcond => split <;> simpa using hcond

/-- In a reachable pool state a release recycles the browser exactly when
the incremented sim counter hits the threshold (it can never overshoot,
by `pool_count_invariant`). -/
theorem release_recycle_exact {cfg : PoolConfig} {s : PoolState}
    (h : PoolReach cfg s) (p : PoolPage) (resetOk : Bool) :
    ((releasePage cfg s p resetOk).2 = true ↔
      (alookup s.simCount p.browserId).getD 0 + 1 = recycleThreshold cfg) := by
  have hc : (alookup s.simCount p.browserId).getD 0 < recycleThreshold cfg := by
    cases hl : alookup s.simCount p.browserId with
    | none => simpa using recycleThreshold_pos cfg
    | some v => simpa [hl] using pool_count_invariant h _ (alookup_mem _ _ _ hl)
  rw [releasePage_snd_iff]
  omega

theorem releasePage_recycle_eq {cfg : PoolConfig} {s : PoolState}
    {p : PoolPage} {resetOk : Bool}
    (hcond : recycleThreshold cfg ≤ (alookup s.simCount p.browserId).getD 0 + 1) :
    releasePage cfg s p resetOk =
      (restartedState s p.browserId (s.busyPages.erase p)
        (aset s.simCount p.browserId
          ((alookup s.simCount p.browserId).getD 0 + 1)), true) := by
  unfold releasePage
  rw [if_pos hcond]

theorem releasePage_fst_avail (cfg : PoolConfig) (s : PoolState) (p : PoolPage)
    (resetOk : Bool) :
    ∃ x, (releasePage cfg s p resetOk).1.availablePages =
        s.availablePages ++ [x] ∧
      (releasePage cfg s p resetOk).1.isShuttingDown = s.isShuttingDown := by
  unfold releasePage
  split
  · exact ⟨⟨s.nextPageId, s.nextBrowserId⟩, by simp [restartedState],
      by simp [restartedState]⟩
  · split
    · exact ⟨p, rfl, rfl⟩
    · exact ⟨⟨s.nextPageId, p.browserId⟩, rfl, rfl⟩

/-- One synchronous job against the pool: acquire a page, run, release it
(successful reset).  `none` when no page can be acquired. -/
def seqJob (cfg : PoolConfig) (s : PoolState) : Option (PoolState × Bool) :=
  match acquirePage s with
  | .acquired p s2 => some (releasePage cfg s2 p true)
  | _ => none

/-- `n` sequential jobs, collecting each release's recycle flag. -/
def seqJobsAux (cfg : PoolConfig) : Nat → PoolState → Option (List Bool)
  | 0, _ => some []
  | n + 1, s =>
      match seqJob cfg s with
      | none => none
      | some (s2, r) => (seqJobsAux cfg n s2).map (fun l => r :: l)

def runSeqJobs (cfg : PoolConfig) (n : Nat) : Option (List Bool) :=
  seqJobsAux cfg n (initPool cfg.poolSize)

/-- C4: a worker browser is torn down and replaced exactly at the release on
which its lease (sim) counter reaches the configured recycle threshold —
never earlier (the `iff` fails below the threshold) and never later (in a
reachable state the counter is always below the threshold, so the first
release that can recycle is the one reaching it); the replacement browser's
counter starts at 0.  Scenario C: threshold 2, pool size 1, 5 sequential
jobs give recycle events exactly after jobs 2 and 4. -/
theorem claim_C4_recycle_exact :
    (∀ (cfg : PoolConfig) (s : PoolState) (p : PoolPage) (resetOk : Bool),
      PoolReach cfg s → p ∈ s.busyPages →
        (((releasePage cfg s p resetOk).2 = true ↔
            (alookup s.simCount p.browserId).getD 0 + 1 = recycleThreshold cfg) ∧
          ((releasePage cfg s p resetOk).2 = true →
            alookup (releasePage cfg s p resetOk).1.simCount s.nextBrowserId =
              some 0))) ∧
      runSeqJobs { poolSize := 1, maxSimsPerBrowser := some 2 } 5 =
        some [false, true, false, true, false] := by
  constructor
  · intro cfg s p resetOk hreach _hmem
    refine ⟨release_recycle_exact hreach p resetOk, ?_⟩
    intro hrec
    have hcond : recycleThreshold cfg ≤
        (alookup s.simCount p.browserId).getD 0 + 1 := by
      have := (release_recycle_exact hreach p resetOk).mp hrec
      omega
    rw [releasePage_recycle_eq hcond]
    simpa [restartedState] using alookup_aset _ _ _
  · rfl

def c4state : PoolState :=
  { browsers := [0]
    availablePages := []
    busyPages := [⟨0, 0⟩]
    simCount := [(0, 0)]
    isShuttingDown := false
    nextBrowserId := 1
    nextPageId := 1 }

theorem claim_C4_witness :
    ((releasePage ⟨1, some 2⟩ c4state ⟨0, 0⟩ true).2 = true ↔ (0 : Nat) + 1 = 2) := by
  have h := claim_C4_recycle_exact.1 ⟨1, some 2⟩ c4state ⟨0, 0⟩ true
    (PoolReach.acquire .init rfl) (by simp [c4state])
  simpa [c4state, alookup, recycleThreshold] using h.1

/-- C6: in every reachable pool state at most `poolSize` pages are busy;
with the shutdown flag set, `acquire` fails with the shutting-down error;
when all `poolSize` pages are busy (and no shutdown), `acquire` stays
blocked, and after any release of a busy page an acquire succeeds again. -/
theorem claim_C6_pool_bound :
    ∀ (cfg : PoolConfig) (s : PoolState), PoolReach cfg s →
      s.busyPages.length ≤ cfg.poolSize ∧
      (s.isShuttingDown = true → acquirePage s = .poolShuttingDown) ∧
      (s.busyPages.length = cfg.poolSize → s.isShuttingDown = false →
        acquirePage s = .blocked ∧
        ∀ p ∈ s.busyPages, ∀ resetOk : Bool,
          ∃ q s2, acquirePage (releasePage cfg s p resetOk).1 = .acquired q s2) := by
  intro cfg s hreach
  have hsize := pool_size_invariant hreach
  refine ⟨by omega, ?_, ?_⟩
  · intro hsd
    unfold acquirePage
    rw [if_pos hsd]
  · intro hfull hsd
    have havail : s.availablePages = [] := by
      have : s.availablePages.length = 0 := by omega
      exact List.length_eq_zero.mp this
    constructor
    · unfold acquirePage
      rw [if_neg (by simp [hsd]), havail]
      rfl
    · intro p _hp resetOk
      obtain ⟨x, hx, hsd2⟩ := releasePage_fst_avail cfg s p resetOk
      have hx2 : (releasePage cfg s p resetOk).1.availablePages = [x] := by
        rw [hx, havail]
        rfl
      unfold acquirePage
      rw [if_neg (by simp [hsd2, hsd]), hx2]
      exact ⟨x, _, rfl⟩

theorem claim_C6_witness : acquirePage c4state = .blocked :=
  ((claim_C6_pool_bound ⟨1, none⟩ c4state
      (PoolReach.acquire .init rfl)).2.2 rfl rfl).1

/-- C9: with `maxSimsPerBrowser` unset (absent) or set to `0`, the recycle
threshold defaults to 50, and in a reachable state a release restarts the
browser exactly when its lease count reaches 50. -/
theorem claim_C9_default_threshold :
    ∀ cfg : PoolConfig,
      cfg.maxSimsPerBrowser = none ∨ cfg.maxSimsPerBrowser = some 0 →
      recycleThreshold cfg = 50 ∧
      ∀ (s : PoolState) (p : PoolPage) (resetOk : Bool),
        PoolReach cfg s →
        ((releasePage cfg s p resetOk).2 = true ↔
          (alookup s.simCount p.browserId).getD 0 + 1 = 50) := by
  intro cfg hcfg
  have h50 : recycleThreshold cfg = 50 := by
    rcases hcfg with h | h <;> simp [recycleThreshold, h]
  refine ⟨h50, ?_⟩
  intro s p resetOk hreach
  simpa [h50] using release_recycle_exact hreach p resetOk

theorem claim_C9_witness :
    recycleThreshold ⟨1, none⟩ = 50 ∧
      (releasePage ⟨1, none⟩ c4state ⟨0, 0⟩ true).2 = false := by
  have h := claim_C9_default_threshold ⟨1, none⟩ (Or.inl rfl)
  refine ⟨h.1, ?_⟩
  have h2 := h.2 c4state ⟨0, 0⟩ true (PoolReach.acquire .init rfl)
  have h3 : ¬((releasePage ⟨1, none⟩ c4state ⟨0, 0⟩ true).2 = true) := by
    rw [h2]; simp [c4state, alookup]
  simpa using h3

/-! ## Orchestrator model (`src/datagen/orchestrator.ts`)

`runWithRetry` is driven by an outcome oracle: for each attempt number the
oracle says whether `acquirePage`, `runner.run`, and `releasePage` would
succeed.  The observable behaviour (events emitted, error document written,
retry counter) is computed from the oracle exactly following the source's
`try { acquire; try { run } finally { release } } catch { retry }` shape. -/

inductive REv
  | acquireEv
  | acquireFailEv
  | runEv (ok : Bool)
  | completedInc
  | releaseEv
  | failedInc
  | errorJson (retryCount : Nat)
  | indexWrite
deriving DecidableEq, Repr

/-- Outcome oracle for a single attempt. -/
structure AttemptOutcome where
  acquireOk : Bool
  runOk : Bool
  releaseOk : Bool
deriving DecidableEq, Repr

/-- JavaScript `try { body } finally { fin }`: the finalizer always runs;
if the finalizer throws, its exception replaces the body's result. -/
def tryFinallyR (body : List REv × Except Unit Unit)
    (fin : List REv × Except Unit Unit) : List REv × Except Unit Unit :=
  (body.1 ++ fin.1,
   match fin.2 with
   | .error e => .error e
   | .ok _ => body.2)

/-- The inner `try` block: `runner.run(config)`, then (still inside the
block, before the `finally`) `job.status = "completed"`,
`this.completedCount++` and the `return`. -/
def runBody (b : AttemptOutcome) : List REv × Except Unit Unit :=
  if b.runOk then ([.runEv true, .completedInc], .ok ())
  else ([.runEv false], .error ())

/-- The `finally` clause: `await this.browserPool.releasePage(page)`. -/
def releaseCall (b : AttemptOutcome) : List REv × Except Unit Unit :=
  ([.releaseEv], if b.releaseOk then .ok () else .error ())

/-- One loop iteration of `runWithRetry`: acquire, then run guarded by the
`finally` that releases.  A failed acquire skips body and finalizer. -/
def runAttempt (b : AttemptOutcome) : List REv × Except Unit Unit :=
  if b.acquireOk then
    let r := tryFinallyR (runBody b) (releaseCall b)
    (REv.acquireEv :: r.1, r.2)
  else ([.acquireFailEv], .error ())

/-- An attempt counts as succeeding when the whole guarded block completes:
acquire, run, and release all succeed (a throwing release is caught by the
retry wrapper like any other failure). -/
def attemptOk (b : AttemptOutcome) : Bool :=
  b.acquireOk && b.runOk && b.releaseOk

theorem runAttempt_snd (b : AttemptOutcome) :
    (runAttempt b).2 = if attemptOk b then Except.ok () else Except.error () := by
  obtain ⟨a, r, rl⟩ := b
  cases a <;> cases r <;> cases rl <;> rfl

/-- Observable result of `runWithRetry` for one job. -/
structure RetryResult where
  trace : List REv
  success : Bool
  retryCount : Nat
  errorWrites : List Nat
deriving Repr

/-- The `for (attempt = 0; attempt <= maxRetries; attempt++)` loop, fed the
list of remaining attempt numbers.  On failure `job.retryCount++`; on the
last attempt the job is marked failed (`failedCount++`) and `error.json` is
written carrying the current `job.retryCount`. -/
def runRetryGo (behav : Nat → AttemptOutcome) (retryCount : Nat) :
    List Nat → RetryResult
  | [] => { trace := [], success := false, retryCount := retryCount,
            errorWrites := [] }
  | a :: rest =>
      let r := runAttempt (behav a)
      match r.2 with
      | .ok _ => { trace := r.1, success := true, retryCount := retryCount,
                   errorWrites := [] }
      | .error _ =>
          match rest with
          | [] => { trace := r.1 ++ [.failedInc, .errorJson (retryCount + 1)],
                    success := false, retryCount := retryCount + 1,
                    errorWrites := [retryCount + 1] }
          | b :: rest2 =>
              let r2 := runRetryGo behav (retryCount + 1) (b :: rest2)
              { trace := r.1 ++ r2.trace, success := r2.success,
                retryCount := r2.retryCount, errorWrites := r2.errorWrites }

def runWithRetry (behav : Nat → AttemptOutcome) (maxRetries : Nat) : RetryResult :=
  runRetryGo behav 0 (List.range (maxRetries + 1))

/-- Number of invocations of the underlying execution (`runner.run`). -/
def countRuns (l : List REv) : Nat :=
  l.countP (fun e => match e with | .runEv _ => true | _ => false)

theorem countRuns_append (l1 l2 : List REv) :
    countRuns (l1 ++ l2) = countRuns l1 + countRuns l2 :=
  List.countP_append _ _ _

theorem countRuns_runAttempt (b : AttemptOutcome) :
    countRuns (runAttempt b).1 ≤ 1 := by
  obtain ⟨a, r, rl⟩ := b
  cases a <;> cases r <;> cases rl <;> simp [runAttempt, tryFinallyR, runBody,
    releaseCall, countRuns]

theorem runRetryGo_cons (behav : Nat → AttemptOutcome) (rc a : Nat)
    (rest : List Nat) :
    runRetryGo behav rc (a :: rest) =
      match (runAttempt (behav a)).2 with
      | .ok _ =>
          { trace := (runAttempt (behav a)).1, success := true,
            retryCount := rc, errorWrites := [] }
      | .error _ =>
          match rest with
          | [] =>
              { trace := (runAttempt (behav a)).1 ++
                  [.failedInc, .errorJson (rc + 1)],
                success := false, retryCount := rc + 1,
                errorWrites := [rc + 1] }
          | b :: rest2 =>
              { trace := (runAttempt (behav a)).1 ++
                  (runRetryGo behav (rc + 1) (b :: rest2)).trace,
                success := (runRetryGo behav (rc + 1) (b :: rest2)).success,
                retryCount := (runRetryGo behav (rc + 1) (b :: rest2)).retryCount,
                errorWrites :=
                  (runRetryGo behav (rc + 1) (b :: rest2)).errorWrites } := by
  rw [runRetryGo.eq_def]

theorem runRetryGo_countRuns (behav : Nat → AttemptOutcome) :
    ∀ (l : List Nat) (rc : Nat),
      countRuns (runRetryGo behav rc l).trace ≤ l.length := by
  intro l
  induction l with
  | nil => intro rc; simp [runRetryGo, countRuns]
  | cons a rest ih =>
      intro rc
      rw [runRetryGo_cons]
      cases h2 : (runAttempt (behav a)).2 with
      | ok u =>
          dsimp only
          exact Nat.le_trans (countRuns_runAttempt (behav a)) (by simp)
      | error u =>
          cases rest with
          | nil =>
              dsimp only
              have h1 := countRuns_runAttempt (behav a)
              rw [countRuns_append]
              have h0 : countRuns [REv.failedInc, REv.errorJson (rc + 1)] = 0 := rfl
              simp only [h0, List.length_cons]
              omega
          | cons b rest2 =>
              dsimp only
              have h1 := countRuns_runAttempt (behav a)
              have h3 := ih (rc + 1)
              rw [countRuns_append]
              simp only [List.length_cons] at h3 ⊢
              omega

theorem runRetryGo_all_fail (behav : Nat → AttemptOutcome) :
    ∀ (l : List Nat) (rc : Nat), l ≠ [] →
      (∀ a ∈ l, attemptOk (behav a) = false) →
      (runRetryGo behav rc l).errorWrites = [rc + l.length] ∧
        (runRetryGo behav rc l).retryCount = rc + l.length ∧
        (runRetryGo behav rc l).success = false := by
  intro l
  induction l with
  | nil => intro rc h; exact absurd rfl h
  | cons a rest ih =>
      intro rc _ hfail
      have hfa : attemptOk (behav a) = false := hfail a (List.mem_cons_self _ _)
      rw [runRetryGo_cons, runAttempt_snd, hfa]
      simp only [Bool.false_eq_true, if_false]
      cases rest with
      | nil => simp
      | cons b rest2 =>
          have hrec := ih (rc + 1) (by simp)
            (fun x hx => hfail x (List.mem_cons_of_mem _ hx))
          dsimp only
          simp only [List.length_cons] at hrec ⊢
          have heq : rc + 1 + (rest2.length + 1) = rc + (rest2.length + 1 + 1) := by
            omega
          refine ⟨?_, ?_, ?_⟩
          · rw [hrec.1, heq]
          · rw [hrec.2.1]; omega
          · exact hrec.2.2

theorem runRetryGo_some_ok (behav : Nat → AttemptOutcome) :
    ∀ (l : List Nat) (rc : Nat),
      (∃ a ∈ l, attemptOk (behav a) = true) →
      (runRetryGo behav rc l).errorWrites = [] ∧
        (runRetryGo behav rc l).success = true := by
  intro l
  induction l with
  | nil => intro rc h; simp at h
  | cons a rest ih =>
      intro rc hex
      rw [runRetryGo_cons, runAttempt_snd]
      by_cases hok : attemptOk (behav a) = true
      · rw [hok]; simp
      · have hfa : attemptOk (behav a) = false := by
          simpa using hok
        rw [hfa]
        simp only [Bool.false_eq_true, if_false]
        obtain ⟨x, hx, hxo⟩ := hex
        rcases List.mem_cons.mp hx with rfl | hx2
        · exact absurd hxo hok
        · cases rest with
          | nil => simp at hx2
          | cons b rest2 =>
              have hrec := ih (rc + 1) ⟨x, hx2, hxo⟩
              dsimp only
              exact ⟨hrec.1, hrec.2⟩

theorem runRetryGo_success_any (behav : Nat → AttemptOutcome) :
    ∀ (l : List Nat) (rc : Nat),
      (runRetryGo behav rc l).success = l.any (fun a => attemptOk (behav a)) := by
  intro l
  induction l with
  | nil => intro rc; simp [runRetryGo]
  | cons a rest ih =>
      intro rc
      rw [runRetryGo_cons, runAttempt_snd]
      by_cases hok : attemptOk (behav a) = true
      · rw [hok]; simp [hok]
      · have hfa : attemptOk (behav a) = false := by simpa using hok
        rw [hfa]
        simp only [Bool.false_eq_true, if_false]
        cases rest with
        | nil => simp [hfa]
        | cons b rest2 =>
            dsimp only
            simp [hfa, ih (rc + 1)]

/-- C1: per job, the retry wrapper invokes the underlying execution at most
`maxRetries + 1` times; if some attempt (acquire + run + release) succeeds,
no `error.json` is written; if every attempt fails, exactly one `error.json`
is written and its `retryCount` field is `maxRetries + 1`. -/
theorem claim_C1_retry_budget :
    ∀ (behav : Nat → AttemptOutcome) (maxRetries : Nat),
      countRuns (runWithRetry behav maxRetries).trace ≤ maxRetries + 1 ∧
      ((∃ k, k ≤ maxRetries ∧ attemptOk (behav k) = true) →
        (runWithRetry behav maxRetries).errorWrites = []) ∧
      ((∀ k, k ≤ maxRetries → attemptOk (behav k) = false) →
        (runWithRetry behav maxRetries).errorWrites = [maxRetries + 1] ∧
          (runWithRetry behav maxRetries).retryCount = maxRetries + 1) := by
  intro behav m
  refine ⟨?_, ?_, ?_⟩
  · simpa [List.length_range] using
      runRetryGo_countRuns behav (List.range (m + 1)) 0
  · rintro ⟨k, hk, hok⟩
    exact (runRetryGo_some_ok behav (List.range (m + 1)) 0
      ⟨k, List.mem_range.mpr (by omega), hok⟩).1
  · intro hall
    have h := runRetryGo_all_fail behav (List.range (m + 1)) 0 (by simp)
      (fun a ha => hall a (by have := List.mem_range.mp ha; omega))
    constructor
    · simpa [runWithRetry, List.length_range] using h.1
    · simpa [runWithRetry, List.length_range] using h.2.1

theorem claim_C1_witness :
    (runWithRetry (fun _ => ⟨true, false, true⟩) 2).errorWrites = [3] ∧
      (runWithRetry (fun _ => ⟨true, false, true⟩) 2).retryCount = 3 :=
  (claim_C1_retry_budget (fun _ => ⟨true, false, true⟩) 2).2.2 (fun _ _ => rfl)

/-- C5: within one attempt of `runWithRetry`, a successful acquisition is
followed by exactly one release (the `finally` clause), on the success path
and on every failure path of the run; a failed acquisition performs no
release. -/
theorem claim_C5_release_exactly_once :
    ∀ b : AttemptOutcome,
      ((runAttempt b).1.count REv.releaseEv = if b.acquireOk then 1 else 0) ∧
      (b.acquireOk = true →
        (runAttempt b).1 = REv.acquireEv :: ((runBody b).1 ++ [REv.releaseEv])) ∧
      (b.acquireOk = false → (runAttempt b).1 = [REv.acquireFailEv]) := by
  intro b
  obtain ⟨a, r, rl⟩ := b
  cases a <;> cases r <;> cases rl <;> exact ⟨by decide, by decide, by decide⟩

theorem claim_C5_witness :
    (runAttempt ⟨true, true, true⟩).1.count REv.releaseEv = 1 ∧
      (runAttempt ⟨true, true, true⟩).1 =
        REv.acquireEv :: ((runBody ⟨true, true, true⟩).1 ++ [REv.releaseEv]) ∧
      (runAttempt ⟨false, true, true⟩).1 = [REv.acquireFailEv] := by
  have h1 := claim_C5_release_exactly_once ⟨true, true, true⟩
  have h2 := claim_C5_release_exactly_once ⟨false, true, true⟩
  exact ⟨by simpa using h1.1, h1.2.1 rfl, h2.2.2 rfl⟩

/-! ## Batch index (`runBatch` in `src/datagen/orchestrator.ts`)

Strings are split on `/` with structural recursion so everything evaluates
inside the kernel. -/

def splitSlash : List Char → List (List Char)
  | [] => [[]]
  | c :: rest =>
      match splitSlash rest with
      | [] => [[]]
      | g :: gs => if c = '/' then [] :: g :: gs else (c :: g) :: gs

def segsOf (s : String) : List String :=
  (splitSlash s.data).map (fun l => String.mk l)

def splitSegs (s : String) : List String :=
  (segsOf s).filter (fun x => !(x == "") && !(x == "."))

def startsWithSlash (s : String) : Bool :=
  match s.data with
  | '/' :: _ => true
  | _ => false

def normSegs (l : List String) : List String :=
  l.foldl (fun acc seg => if seg = ".." then acc.dropLast else acc ++ [seg]) []

def resolveAgainst (cwd : List String) (p : String) : List String :=
  if startsWithSlash p then normSegs (splitSegs p)
  else normSegs (cwd ++ splitSegs p)

def commonPrefixLen : List String → List String → Nat
  | a :: as, b :: bs => if a = b then commonPrefixLen as bs + 1 else 0
  | _, _ => 0

def joinSegs : List String → String
  | [] => ""
  | [x] => x
  | x :: y :: rest => x ++ "/" ++ joinSegs (y :: rest)

/-- Model of Node's `path.relative(from, to)` (POSIX): resolve both against
the working directory `cwd` (given as an absolute segment list), strip the
common prefix, then climb with `..` segments. -/
def nodeRelative (cwd : List String) (f t : String) : String :=
  let fs := resolveAgainst cwd f
  let ts := resolveAgainst cwd t
  let c := commonPrefixLen fs ts
  joinSegs (List.replicate (fs.length - c) ".." ++ ts.drop c)

/-- Model of Node's `path.dirname` (POSIX), for paths without trailing
slashes: everything before the final separator, `"."` when there is none. -/
def nodeDirname (s : String) : String :=
  let parts := segsOf s
  if parts.length ≤ 1 then "."
  else
    let d := joinSegs parts.dropLast
    if d = "" then "/" else d

/-- The fields of a `SimulationConfig` that the batch index reads. -/
structure JobSpec where
  id : String
  preset : String
  outputDir : String
deriving DecidableEq, Repr

structure IndexEntry where
  id : String
  preset : String
  path : String
deriving DecidableEq, Repr

structure BatchIndexDoc where
  total_simulations : Nat
  completed : Nat
  failed : Nat
  simulations : List IndexEntry
deriving Repr

structure BatchResult where
  trace : List REv
  index : BatchIndexDoc
deriving Repr

def withIdxFrom {α : Type} : Nat → List α → List (Nat × α)
  | _, [] => []
  | k, x :: xs => (k, x) :: withIdxFrom (k + 1) xs

def withIdx {α : Type} (l : List α) : List (Nat × α) := withIdxFrom 0 l

def runBatchJobs (behav : Nat → Nat → AttemptOutcome) (maxRetries : Nat) :
    List (Nat × JobSpec) → List (JobSpec × RetryResult)
  | [] => []
  | (i, j) :: rest =>
      (j, runWithRetry (behav i) maxRetries) :: runBatchJobs behav maxRetries rest

/-- `runBatch`: sequential model of the bounded-concurrency queue (job `i`
runs with outcome oracle `behav i`; successful results are pushed in job
order — under concurrency only this order can differ).  After `Promise.all`
resolves, one `index.json` is written with the counters and one entry per
*pushed result*: `{ id, preset, path: relative(outputDir, dirname(id)) }`. -/
def runBatch (cwd : List String) (outputDir : String) (jobs : List JobSpec)
    (behav : Nat → Nat → AttemptOutcome) (maxRetries : Nat) : BatchResult :=
  let rs := runBatchJobs behav maxRetries (withIdx jobs)
  let results := (rs.filter (fun x => x.2.success)).map (fun x => x.1)
  let trace := (rs.map (fun x => x.2.trace)).flatten ++ [REv.indexWrite]
  { trace := trace
    index :=
      { total_simulations := jobs.length
        completed := trace.count REv.completedInc
        failed := trace.count REv.failedInc
        simulations := results.map (fun j =>
          ⟨j.id, j.preset, nodeRelative cwd outputDir (nodeDirname j.id)⟩) } }

/-- `true` when some attempt number below `n` would fully succeed. -/
def anyOk (behav : Nat → AttemptOutcome) (n : Nat) : Bool :=
  (List.range n).any (fun k => attemptOk (behav k))

theorem runWithRetry_success (behav : Nat → AttemptOutcome) (m : Nat) :
    (runWithRetry behav m).success = anyOk behav (m + 1) := by
  simpa [runWithRetry, anyOk] using
    runRetryGo_success_any behav (List.range (m + 1)) 0

theorem count_indexWrite_runAttempt (b : AttemptOutcome) :
    (runAttempt b).1.count REv.indexWrite = 0 := by
  obtain ⟨a, r, rl⟩ := b
  cases a <;> cases r <;> cases rl <;> decide

theorem count_indexWrite_runRetryGo (behav : Nat → AttemptOutcome) :
    ∀ (l : List Nat) (rc : Nat),
      (runRetryGo behav rc l).trace.count REv.indexWrite = 0 := by
  intro l
  induction l with
  | nil => intro rc; simp [runRetryGo]
  | cons a rest ih =>
      intro rc
      rw [runRetryGo_cons]
      cases h2 : (runAttempt (behav a)).2 with
      | ok u =>
          dsimp only
          exact count_indexWrite_runAttempt (behav a)
      | error u =>
          cases rest with
          | nil =>
              dsimp only
              rw [List.count_append, count_indexWrite_runAttempt (behav a)]
              rfl
          | cons b rest2 =>
              dsimp only
              rw [List.count_append, count_indexWrite_runAttempt (behav a),
                ih (rc + 1)]

theorem count_indexWrite_runWithRetry (behav : Nat → AttemptOutcome) (m : Nat) :
    (runWithRetry behav m).trace.count REv.indexWrite = 0 :=
  count_indexWrite_runRetryGo behav (List.range (m + 1)) 0

theorem count_indexWrite_runBatchJobs (behav : Nat → Nat → AttemptOutcome)
    (m : Nat) :
    ∀ l : List (Nat × JobSpec),
      ((runBatchJobs behav m l).map (fun x => x.2.trace)).flatten.count
        REv.indexWrite = 0 := by
  intro l
  induction l with
  | nil => simp [runBatchJobs]
  | cons hd tl ih =>
      obtain ⟨i, j⟩ := hd
      simp only [runBatchJobs, List.map_cons, List.flatten_cons,
        List.count_append, ih]
      rw [count_indexWrite_runWithRetry]

theorem runBatchJobs_results (behav : Nat → Nat → AttemptOutcome) (m : Nat) :
    ∀ l : List (Nat × JobSpec),
      ((runBatchJobs behav m l).filter (fun x => x.2.success)).map
          (fun x => x.1) =
        (l.filter (fun x => anyOk (behav x.1) (m + 1))).map Prod.snd := by
  intro l
  induction l with
  | nil => rfl
  | cons hd tl ih =>
      obtain ⟨i, j⟩ := hd
      simp only [runBatchJobs, List.filter_cons]
      cases hok : anyOk (behav i) (m + 1) with
      | true => simp [runWithRetry_success, hok, ih]
      | false => simp [runWithRetry_success, hok, ih]

/-- C8 (amended): after all jobs resolve, exactly one index document is
written; it carries the total job count, the completed / failed event
counters, and one entry per *successfully completed* job — not one per job
of the batch — whose `path` field is `relative(outputDir, dirname(id))`,
which for slash-free job ids does not mention the job's output directory. -/
theorem claim_C8_amended :
    ∀ (cwd : List String) (outputDir : String) (jobs : List JobSpec)
      (behav : Nat → Nat → AttemptOutcome) (maxRetries : Nat),
      (runBatch cwd outputDir jobs behav maxRetries).trace.count
          REv.indexWrite = 1 ∧
        (runBatch cwd outputDir jobs behav maxRetries).index.total_simulations =
          jobs.length ∧
        (runBatch cwd outputDir jobs behav maxRetries).index.completed =
          (runBatch cwd outputDir jobs behav maxRetries).trace.count
            REv.completedInc ∧
        (runBatch cwd outputDir jobs behav maxRetries).index.failed =
          (runBatch cwd outputDir jobs behav maxRetries).trace.count
            REv.failedInc ∧
        (runBatch cwd outputDir jobs behav maxRetries).index.simulations =
          ((withIdx jobs).filter
              (fun x => anyOk (behav x.1) (maxRetries + 1))).map
            (fun x =>
              ⟨x.2.id, x.2.preset,
                nodeRelative cwd outputDir (nodeDirname x.2.id)⟩) := by
  intro cwd outputDir jobs behav m
  refine ⟨?_, rfl, rfl, rfl, ?_⟩
  · rw [show (runBatch cwd outputDir jobs behav m).trace =
        ((runBatchJobs behav m (withIdx jobs)).map
          (fun x => x.2.trace)).flatten ++ [REv.indexWrite] from rfl]
    rw [List.count_append, count_indexWrite_runBatchJobs]
    rfl
  · show (((runBatchJobs behav m (withIdx jobs)).filter
        (fun x => x.2.success)).map (fun x => x.1)).map _ = _
    rw [runBatchJobs_results, List.map_map]
    rfl

def cexJobs : List JobSpec := [⟨"j1", "p", "out/p/j1"⟩, ⟨"j2", "p", "out/p/j2"⟩]

def cexBehav : Nat → Nat → AttemptOutcome := fun i _ =>
  if i = 0 then ⟨true, true, true⟩ else ⟨true, false, true⟩

/-- C8 as stated is false: with one succeeding and one failing job, the
written index has a single entry, not one per job, and the entry's `path`
is `".."` (the relative path from the output root to the working
directory), not the job's output path `"p/j1"`. -/
theorem claim_C8_counterexample :
    ¬((runBatch ["w"] "out" cexJobs cexBehav 0).index.simulations.length =
        (runBatch ["w"] "out" cexJobs cexBehav 0).index.total_simulations) ∧
      (runBatch ["w"] "out" cexJobs cexBehav 0).index.simulations =
        [⟨"j1", "p", ".."⟩] ∧
      nodeRelative ["w"] "out" "out/p/j1" = "p/j1" := by
  refine ⟨by decide, by decide, by decide⟩

/-! ## Session runner model (`src/datagen/simulation-runner.ts`)

The renderer behind `window.VPDE` is an external collaborator (spec §6);
it is modelled as a small state machine: `applyBrush` collects brushes and
leaves simulation time unchanged, `stepN n` advances simulation time by
`n * dt` (an abstract per-step rate), `reset` restarts simulation time at
0.  JavaScript numbers are abstracted as `Int`. -/

structure BrushParams where
  x : Int
  y : Int
  species : String
  value : Int
  radius : Int
deriving DecidableEq, Repr

structure Intervention where
  frame : Int
  simulationTime : Option Int
  type : String
  params : BrushParams
deriving DecidableEq, Repr

/-- The fields of `SimulationConfig` the runner reads. -/
structure SimConfig where
  id : String
  preset : String
  options : List (String × String)
  totalFrames : Nat
  timestepsPerFrame : Nat
  interventions : List Intervention
  outputDir : String
  randomSeed : Option Int
  resolution : Option (Nat × Nat)
deriving Repr

structure SessionState where
  time : Int
  dt : Int
  optionsSet : List (String × String)
  seed : Option Int
  brushes : List BrushParams
deriving DecidableEq, Repr

def setSeedS (s : SessionState) (v : Int) : SessionState :=
  { s with seed := some v }

def setOptionS (s : SessionState) (k v : String) : SessionState :=
  { s with optionsSet := s.optionsSet ++ [(k, v)] }

def updateProblemS (s : SessionState) : SessionState := s

def resetS (s : SessionState) : SessionState := { s with time := 0 }

def stepNS (s : SessionState) (n : Nat) : SessionState :=
  { s with time := s.time + n * s.dt }

def getTimeS (s : SessionState) : Int := s.time

def applyBrushS (s : SessionState) (p : BrushParams) : SessionState :=
  { s with brushes := s.brushes ++ [p] }

/-- Remote-call events of one run, in program order. -/
inductive SEv
  | goto
  | waitReady
  | setSeed (v : Int)
  | setOption (k v : String)
  | updateProblem
  | reset
  | applyBrush (p : BrushParams)
  | getTime (t : Int)
  | stepN (n : Nat)
  | render
  | captureFrame
  | saveFrame (name : String)
  | getOptions
  | writeMetadata
deriving DecidableEq, Repr

/-! ### Frame file names: `String(frameIndex).padStart(6, "0") + ".png"` -/

def digitChar : Nat → Char
  | 0 => '0' | 1 => '1' | 2 => '2' | 3 => '3' | 4 => '4'
  | 5 => '5' | 6 => '6' | 7 => '7' | 8 => '8' | 9 => '9'
  | _ => '*'

def natCharsAux : Nat → Nat → List Char
  | 0, _ => []
  | fuel + 1, n =>
      if n < 10 then [digitChar n]
      else natCharsAux fuel (n / 10) ++ [digitChar (n % 10)]

/-- The decimal digits of `n`, exactly as JavaScript `String(n)` prints a
natural number. -/
def natChars (n : Nat) : List Char := natCharsAux (n + 1) n

/-- `` `${String(frameIndex).padStart(6, "0")}.png` `` -/
def frameFileName (i : Nat) : String :=
  String.mk (List.replicate (6 - (natChars i).length) '0' ++ natChars i ++
    ['.', 'p', 'n', 'g'])

def charVal : Char → Nat
  | '1' => 1 | '2' => 2 | '3' => 3 | '4' => 4 | '5' => 5
  | '6' => 6 | '7' => 7 | '8' => 8 | '9' => 9 | _ => 0

def ofChars (l : List Char) : Nat :=
  l.foldl (fun a c => 10 * a + charVal c) 0

theorem charVal_digitChar {d : Nat} (h : d < 10) : charVal (digitChar d) = d := by
  interval_cases d <;> rfl

theorem ofChars_append (l1 l2 : List Char) :
    ofChars (l1 ++ l2) = (l2.foldl (fun a c => 10 * a + charVal c) (ofChars l1)) := by
  simp [ofChars, List.foldl_append]

theorem ofChars_concat (l : List Char) (c : Char) :
    ofChars (l ++ [c]) = 10 * ofChars l + charVal c := by
  rw [ofChars_append]
  rfl

theorem ofChars_natCharsAux :
    ∀ (fuel n : Nat), n < fuel → ofChars (natCharsAux fuel n) = n := by
  intro fuel
  induction fuel with
  | zero => intro n h; omega
  | succ fuel ih =>
      intro n h
      by_cases h10 : n < 10
      · simp only [natCharsAux, if_pos h10]
        show 10 * 0 + charVal (digitChar n) = n
        rw [charVal_digitChar h10]
        omega
      · simp only [natCharsAux, if_neg h10]
        rw [ofChars_concat, ih (n / 10) (by omega), charVal_digitChar (by omega)]
        omega

theorem ofChars_natChars (n : Nat) : ofChars (natChars n) = n :=
  ofChars_natCharsAux (n + 1) n (Nat.lt_succ_self n)

theorem ofChars_replicate_zero (k : Nat) (l : List Char) :
    ofChars (List.replicate k '0' ++ l) = ofChars l := by
  induction k with
  | zero => rfl
  | succ k ih =>
      rw [List.replicate_succ, List.cons_append]
      show ofChars (List.replicate k '0' ++ l) = ofChars l
      exact ih

theorem frameFileName_injective : Function.Injective frameFileName := by
  intro a b h
  unfold frameFileName at h
  have hdata : List.replicate (6 - (natChars a).length) '0' ++ natChars a ++
      ['.', 'p', 'n', 'g'] =
      List.replicate (6 - (natChars b).length) '0' ++ natChars b ++
      ['.', 'p', 'n', 'g'] := congrArg String.data h
  have h2 : List.replicate (6 - (natChars a).length) '0' ++ natChars a =
      List.replicate (6 - (natChars b).length) '0' ++ natChars b :=
    List.append_left_injective ['.', 'p', 'n', 'g'] hdata
  have h3 : ofChars (List.replicate (6 - (natChars a).length) '0' ++ natChars a) =
      ofChars (List.replicate (6 - (natChars b).length) '0' ++ natChars b) :=
    congrArg ofChars h2
  rw [ofChars_replicate_zero, ofChars_replicate_zero, ofChars_natChars,
    ofChars_natChars] at h3
  exact h3

theorem natCharsAux_length_le :
    ∀ (fuel n k : Nat), n < fuel → 1 ≤ k → n < 10 ^ k →
      (natCharsAux fuel n).length ≤ k := by
  intro fuel
  induction fuel with
  | zero => intro n k h; omega
  | succ fuel ih =>
      intro n k h hk hnk
      by_cases h10 : n < 10
      · simp only [natCharsAux, if_pos h10, List.length_singleton]
        omega
      · simp only [natCharsAux, if_neg h10, List.length_append,
          List.length_singleton]
        obtain ⟨k2, rfl⟩ : ∃ k2, k = k2 + 1 := ⟨k - 1, by omega⟩
        have hk2 : 1 ≤ k2 := by
          by_contra hc
          have : k2 = 0 := by omega
          subst this
          simp at hnk
          omega
        have hdiv : n / 10 < 10 ^ k2 := by
          rw [Nat.div_lt_iff_lt_mul (by omega)]
          calc n < 10 ^ (k2 + 1) := hnk
          _ = 10 ^ k2 * 10 := by ring
        have := ih (n / 10) k2 (by omega) hk2 hdiv
        omega

theorem natChars_length_le_six {i : Nat} (h : i < 1000000) :
    (natChars i).length ≤ 6 :=
  natCharsAux_length_le (i + 1) i 6 (Nat.lt_succ_self i) (by omega) (by omega)

theorem natChars_length_pos (n : Nat) : 1 ≤ (natChars n).length := by
  unfold natChars natCharsAux
  by_cases h10 : n < 10
  · simp [h10]
  · simp [h10]

theorem frameFileName_length {i : Nat} (h : i < 1000000) :
    (frameFileName i).length = 10 := by
  have h6 := natChars_length_le_six h
  have h1 := natChars_length_pos i
  show (List.replicate (6 - (natChars i).length) '0' ++ natChars i ++
    ['.', 'p', 'n', 'g']).length = 10
  simp only [List.length_append, List.length_replicate]
  have : (['.', 'p', 'n', 'g'] : List Char).length = 4 := rfl
  omega

/-! ### The run protocol -/

/-- Order used to model `[...interventions].sort((a, b) => a.frame - b.frame)`:
V8's sort is stable, so the sorted copy is ordered by frame with ties in
original-array order; pairing each intervention with its original index
makes that a unique linear order. -/
def ivLe (a b : Nat × Intervention) : Prop :=
  a.2.frame < b.2.frame ∨ (a.2.frame = b.2.frame ∧ a.1 ≤ b.1)

instance : DecidableRel ivLe := fun a b => by unfold ivLe; infer_instance

instance : IsTotal (Nat × Intervention) ivLe := ⟨by intro a b; unfold ivLe; omega⟩

instance : IsTrans (Nat × Intervention) ivLe := ⟨by intro a b c; unfold ivLe; omega⟩

def sortIvs (ivs : List Intervention) : List (Nat × Intervention) :=
  List.insertionSort ivLe (withIdx ivs)

/-- `applyIntervention`: acts only on the `"brush"` variant. -/
def applyInterventionS (s : SessionState) (iv : Intervention) : SessionState :=
  if iv.type = "brush" then applyBrushS s iv.params else s

def brushEvs (iv : Intervention) : List SEv :=
  if iv.type = "brush" then [SEv.applyBrush iv.params] else []

structure FrameAcc where
  sess : SessionState
  pending : List (Nat × Intervention)
  recs : List (Nat × Intervention × Int)
  evs : List SEv
deriving Repr

/-- The `while` loop of `run`: apply every pending intervention whose frame
equals the current index (the sorted list is consumed front to back), and
record on each the simulation time read right after applying it.  The
record `(i, iv, t)` stands for the in-place `intervention.simulationTime =
simTime` mutation of the object at original index `i`. -/
def applyLoop (st : SessionState) :
    List (Nat × Intervention) → Nat → FrameAcc
  | [], _ => ⟨st, [], [], []⟩
  | (i, iv) :: rest, f =>
      if iv.frame = (f : Int) then
        let st1 := applyInterventionS st iv
        let t := getTimeS st1
        let r := applyLoop st1 rest f
        ⟨r.sess, r.pending, (i, iv, t) :: r.recs,
          brushEvs iv ++ SEv.getTime t :: r.evs⟩
      else ⟨st, (i, iv) :: rest, [], []⟩

/-- Per-frame annotation (the `FrameAnnotation` pushed per captured frame);
`ivRef` holds the original index of the object reference stored in the
`intervention` field (`interventions.find(i => i.frame === frame)`). -/
structure FrameNote where
  frameIndex : Nat
  simulationTime : Int
  ivRef : Option Nat
deriving DecidableEq, Repr

structure RunAcc where
  sess : SessionState
  pending : List (Nat × Intervention)
  recs : List (Nat × Intervention × Int)
  notes : List FrameNote
  saved : List String
  evs : List SEv
deriving Repr

/-- The `for (frame = 0; frame < totalFrames; frame++)` loop: interventions
for this frame, then `stepN(timestepsPerFrame); render()`, then
`captureFrame` / `saveFrame`, then the frame annotation with the time read
after stepping. -/
def runFrames (tpf : Nat) (sortedAll : List (Nat × Intervention)) :
    SessionState → List (Nat × Intervention) → List Nat → RunAcc
  | st, pending, [] => ⟨st, pending, [], [], [], []⟩
  | st, pending, f :: fs =>
      let a := applyLoop st pending f
      let st2 := stepNS a.sess tpf
      let name := frameFileName f
      let t2 := getTimeS st2
      let note : FrameNote :=
        ⟨f, t2, (sortedAll.find? (fun p => p.2.frame == (f : Int))).map
          (fun p => p.1)⟩
      let r := runFrames tpf sortedAll st2 a.pending fs
      ⟨r.sess, r.pending, a.recs ++ r.recs, note :: r.notes,
        name :: r.saved,
        a.evs ++ [SEv.stepN tpf, SEv.render, SEv.captureFrame,
          SEv.saveFrame name, SEv.getTime t2] ++ r.evs⟩

/-- `list[j].simulationTime = some t` (the in-place object mutation). -/
def setSimAt : List Intervention → Nat → Int → List Intervention
  | [], _, _ => []
  | iv :: rest, 0, t => { iv with simulationTime := some t } :: rest
  | iv :: rest, j + 1, t => iv :: setSimAt rest j t

/-- Replay the recorded mutations onto the original array (the sorted copy
shares its element objects with `config.interventions`). -/
def applyRecs (ivs : List Intervention) (recs : List (Nat × Intervention × Int)) :
    List Intervention :=
  recs.foldl (fun l r => setSimAt l r.1 r.2.2) ivs

structure MetaNote where
  frameIndex : Nat
  simulationTime : Int
  intervention : Option Intervention
deriving DecidableEq, Repr

/-- The fields of the persisted `SimulationMetadata` document the claims
read (equation/parameter parsing from the options snapshot is omitted). -/
structure Metadata where
  id : String
  preset : String
  totalFrames : Nat
  timestepsPerFrame : Nat
  totalTime : Int
  randomSeed : Option Int
  resolution : Nat × Nat
  interventions : List Intervention
  frameNotes : List MetaNote
deriving Repr

structure RunResult where
  trace : List SEv
  saved : List String
  recs : List (Nat × Intervention × Int)
  metadata : Metadata
deriving Repr

/-- Initialization section of `run`, in source order: navigate and await
`VPDE_READY`; if a seed is configured, inject it; if there are option
overrides, apply them and `updateProblem()`; then `reset()`. -/
def initSession (sess0 : SessionState) (cfg : SimConfig) :
    SessionState × List SEv :=
  let s1 :=
    match cfg.randomSeed with
    | some v => (setSeedS sess0 v, [SEv.setSeed v])
    | none => (sess0, ([] : List SEv))
  let s2 :=
    if cfg.options ≠ [] then
      (updateProblemS (cfg.options.foldl (fun s kv => setOptionS s kv.1 kv.2) s1.1),
       s1.2 ++ cfg.options.map (fun kv => SEv.setOption kv.1 kv.2) ++
         [SEv.updateProblem])
    else s1
  (resetS s2.1, SEv.goto :: SEv.waitReady :: s2.2 ++ [SEv.reset])

/-- `SimulationRunner.run(config)`. -/
def runSim (sess0 : SessionState) (cfg : SimConfig) : RunResult :=
  let ini := initSession sess0 cfg
  let sorted := sortIvs cfg.interventions
  let r := runFrames cfg.timestepsPerFrame sorted ini.1 sorted
    (List.range cfg.totalFrames)
  let finalIvs := applyRecs cfg.interventions r.recs
  let finalTime := getTimeS r.sess
  { trace := ini.2 ++ r.evs ++
      [SEv.getOptions, SEv.getTime finalTime, SEv.writeMetadata]
    saved := r.saved
    recs := r.recs
    metadata :=
      { id := cfg.id
        preset := cfg.preset
        totalFrames := cfg.totalFrames
        timestepsPerFrame := cfg.timestepsPerFrame
        totalTime := finalTime
        randomSeed := cfg.randomSeed
        resolution := cfg.resolution.getD (512, 512)
        interventions := finalIvs
        frameNotes := r.notes.map (fun n =>
          ⟨n.frameIndex, n.simulationTime,
            n.ivRef.bind (fun i => finalIvs[i]?)⟩) } }

theorem runFrames_saved (tpf : Nat) (sorted : List (Nat × Intervention)) :
    ∀ (fs : List Nat) (st : SessionState) (pending : List (Nat × Intervention)),
      (runFrames tpf sorted st pending fs).saved = fs.map frameFileName := by
  intro fs
  induction fs with
  | nil => intro st pending; rfl
  | cons f fs ih =>
      intro st pending
      simp only [runFrames]
      rw [List.map_cons, ih]

/-- C2: a successful run with `totalFrames = n` saves exactly the frame
files for indices `0 .. n-1`, in ascending capture order, named
`String(i).padStart(6, "0") + ".png"`; the names are pairwise distinct
(no duplicates, no gaps), and for `n ≤ 10^6` every name is exactly six
zero-padded digits plus `.png`. -/
theorem claim_C2_frame_files :
    ∀ (sess0 : SessionState) (cfg : SimConfig),
      (runSim sess0 cfg).saved =
        (List.range cfg.totalFrames).map frameFileName ∧
      (runSim sess0 cfg).saved.Nodup ∧
      (cfg.totalFrames ≤ 1000000 →
        ∀ name ∈ (runSim sess0 cfg).saved, name.length = 10) := by
  intro sess0 cfg
  have hs : (runSim sess0 cfg).saved =
      (List.range cfg.totalFrames).map frameFileName := by
    show (runFrames cfg.timestepsPerFrame (sortIvs cfg.interventions)
      (initSession sess0 cfg).1 (sortIvs cfg.interventions)
      (List.range cfg.totalFrames)).saved = _
    exact runFrames_saved _ _ _ _ _
  refine ⟨hs, ?_, ?_⟩
  · rw [hs]
    exact (List.nodup_range _).map frameFileName_injective
  · intro hn name hname
    rw [hs] at hname
    obtain ⟨i, hi, rfl⟩ := List.mem_map.mp hname
    exact frameFileName_length (by have := List.mem_range.mp hi; omega)

def demoSess : SessionState := ⟨0, 1, [], none, []⟩

def c2cfg : SimConfig :=
  { id := "a", preset := "p", options := [], totalFrames := 2,
    timestepsPerFrame := 3, interventions := [], outputDir := "o",
    randomSeed := none, resolution := none }

theorem claim_C2_witness :
    (runSim demoSess c2cfg).saved = [frameFileName 0, frameFileName 1] ∧
      ∀ name ∈ (runSim demoSess c2cfg).saved, name.length = 10 := by
  have h := claim_C2_frame_files demoSess c2cfg
  refine ⟨?_, h.2.2 (by decide)⟩
  rw [h.1]
  rfl

theorem applyInterventionS_time (s : SessionState) (iv : Intervention) :
    (applyInterventionS s iv).time = s.time := by
  unfold applyInterventionS
  split <;> rfl

theorem applyInterventionS_dt (s : SessionState) (iv : Intervention) :
    (applyInterventionS s iv).dt = s.dt := by
  unfold applyInterventionS
  split <;> rfl

theorem applyLoop_spec (f : Nat) :
    ∀ (pending : List (Nat × Intervention)) (st : SessionState),
      (applyLoop st pending f).sess.time = st.time ∧
      (applyLoop st pending f).sess.dt = st.dt ∧
      (applyLoop st pending f).recs =
        (pending.takeWhile (fun p => p.2.frame == (f : Int))).map
          (fun p => (p.1, p.2, st.time)) ∧
      (applyLoop st pending f).pending =
        pending.dropWhile (fun p => p.2.frame == (f : Int)) ∧
      (applyLoop st pending f).evs =
        (pending.takeWhile (fun p => p.2.frame == (f : Int))).flatMap
          (fun p => brushEvs p.2 ++ [SEv.getTime st.time]) := by
  intro pending
  induction pending with
  | nil => intro st; simp [applyLoop]
  | cons hd rest ih =>
      obtain ⟨i, iv⟩ := hd
      intro st
      by_cases hf : iv.frame = (f : Int)
      · have hb : (iv.frame == (f : Int)) = true := beq_iff_eq.mpr hf
        have ht : getTimeS (applyInterventionS st iv) = st.time :=
          applyInterventionS_time st iv
        obtain ⟨ih1, ih2, ih3, ih4, ih5⟩ := ih (applyInterventionS st iv)
        simp only [applyLoop, if_pos hf]
        refine ⟨?_, ?_, ?_, ?_, ?_⟩
        · rw [ih1, applyInterventionS_time]
        · rw [ih2, applyInterventionS_dt]
        · rw [List.takeWhile_cons, hb]
          simp only [if_true, List.map_cons]
          rw [ih3, applyInterventionS_time]
          simp [ht]
        · rw [List.dropWhile_cons, hb]
          simp only [if_true]
          rw [ih4]
        · rw [List.takeWhile_cons, hb]
          simp only [if_true, List.flatMap_cons]
          rw [ih5, applyInterventionS_time]
          simp [ht]
      · have hb : (iv.frame == (f : Int)) = false := by
          simpa using hf
        simp only [applyLoop, if_neg hf]
        refine ⟨by trivial, by trivial, ?_, ?_, ?_⟩
        · rw [List.takeWhile_cons, hb]; rfl
        · rw [List.dropWhile_cons, hb]; rfl
        · rw [List.takeWhile_cons, hb]; rfl

theorem withIdxFrom_mem {α : Type} :
    ∀ (l : List α) (k j : Nat) (x : α),
      (j, x) ∈ withIdxFrom k l ↔ ∃ m, j = k + m ∧ l[m]? = some x := by
  intro l
  induction l with
  | nil => intro k j x; simp [withIdxFrom]
  | cons a t ih =>
      intro k j x
      simp only [withIdxFrom, List.mem_cons]
      constructor
      · rintro (h | h)
        · obtain ⟨rfl, rfl⟩ := Prod.mk.injEq .. |>.mp h
          exact ⟨0, by omega, by simp⟩
        · obtain ⟨m, rfl, hm⟩ := (ih (k + 1) j x).mp h
          exact ⟨m + 1, by omega, by simpa using hm⟩
      · rintro ⟨m, rfl, hm⟩
        cases m with
        | zero =>
            left
            simp only [List.getElem?_cons_zero, Option.some.injEq] at hm
            simp [hm]
        | succ m =>
            right
            refine (ih (k + 1) _ x).mpr ⟨m, by omega, by simpa using hm⟩

theorem withIdx_mem {α : Type} (l : List α) (j : Nat) (x : α) :
    (j, x) ∈ withIdx l ↔ l[j]? = some x := by
  rw [withIdx, withIdxFrom_mem]
  constructor
  · rintro ⟨m, rfl, hm⟩
    simpa using hm
  · intro h
    exact ⟨j, by omega, h⟩

theorem sortIvs_sorted (ivs : List Intervention) :
    List.Pairwise (fun a b : Nat × Intervention => a.2.frame ≤ b.2.frame)
      (sortIvs ivs) := by
  have h := List.sorted_insertionSort ivLe (withIdx ivs)
  exact h.imp (fun hab => by unfold ivLe at hab; omega)

theorem sortIvs_mem (ivs : List Intervention) (i : Nat) (iv : Intervention) :
    (i, iv) ∈ sortIvs ivs ↔ ivs[i]? = some iv := by
  rw [sortIvs, (List.perm_insertionSort ivLe (withIdx ivs)).mem_iff]
  exact withIdx_mem ivs i iv

theorem runFrames_recs_mem (tpf : Nat) (sorted : List (Nat × Intervention)) :
    ∀ (fs : List Nat) (st : SessionState) (pending : List (Nat × Intervention))
      (r : Nat × Intervention × Int),
      r ∈ (runFrames tpf sorted st pending fs).recs →
      ∃ f ∈ fs, (r.1, r.2.1) ∈ pending ∧ r.2.1.frame = (f : Int) := by
  intro fs
  induction fs with
  | nil => intro st pending r h; simp [runFrames] at h
  | cons f fs ih =>
      intro st pending r h
      simp only [runFrames] at h
      rw [List.mem_append] at h
      rcases h with h | h
      · rw [(applyLoop_spec f pending st).2.2.1] at h
        obtain ⟨p, hp, rfl⟩ := List.mem_map.mp h
        have hmem : p ∈ pending := (List.takeWhile_sublist _).mem hp
        have hfr :=
          @List.mem_takeWhile_imp _ (fun q : Nat × Intervention =>
            q.2.frame == (f : Int)) pending p hp
        exact ⟨f, List.mem_cons_self _ _, hmem, beq_iff_eq.mp hfr⟩
      · obtain ⟨f2, hf2, hmem, hfr⟩ := ih _ _ r h
        rw [(applyLoop_spec f pending st).2.2.2.1] at hmem
        exact ⟨f2, List.mem_cons_of_mem _ hf2,
          (List.dropWhile_sublist _).mem hmem, hfr⟩

theorem setSimAt_length :
    ∀ (l : List Intervention) (j : Nat) (t : Int),
      (setSimAt l j t).length = l.length := by
  intro l
  induction l with
  | nil => intro j t; rfl
  | cons iv rest ih =>
      intro j t
      cases j with
      | zero => rfl
      | succ j => simp [setSimAt, ih]

theorem setSimAt_getElem_ne :
    ∀ (l : List Intervention) (j : Nat) (t : Int) (i : Nat), j ≠ i →
      (setSimAt l j t)[i]? = l[i]? := by
  intro l
  induction l with
  | nil => intro j t i h; rfl
  | cons iv rest ih =>
      intro j t i h
      cases j with
      | zero =>
          cases i with
          | zero => exact absurd rfl h
          | succ i => rfl
      | succ j =>
          cases i with
          | zero => simp [setSimAt]
          | succ i =>
              simp only [setSimAt, List.getElem?_cons_succ]
              exact ih j t i (by omega)

theorem applyRecs_length :
    ∀ (recs : List (Nat × Intervention × Int)) (l : List Intervention),
      (applyRecs l recs).length = l.length := by
  intro recs
  induction recs with
  | nil => intro l; rfl
  | cons r rest ih =>
      intro l
      show (applyRecs (setSimAt l r.1 r.2.2) rest).length = l.length
      rw [ih, setSimAt_length]

theorem applyRecs_getElem_ne (i : Nat) :
    ∀ (recs : List (Nat × Intervention × Int)) (l : List Intervention),
      (∀ r ∈ recs, r.1 ≠ i) → (applyRecs l recs)[i]? = l[i]? := by
  intro recs
  induction recs with
  | nil => intro l _; rfl
  | cons r rest ih =>
      intro l h
      show (applyRecs (setSimAt l r.1 r.2.2) rest)[i]? = l[i]?
      rw [ih _ (fun q hq => h q (List.mem_cons_of_mem _ hq)),
        setSimAt_getElem_ne _ _ _ _ (h r (List.mem_cons_self _ _))]

/-- C10: an intervention whose frame index is at least `totalFrames` is
never applied (no mutation record ever targets its index), and it reaches
the persisted metadata's `interventions` array unchanged, at its original
position, in an array of unchanged length. -/
theorem claim_C10_out_of_range :
    ∀ (sess0 : SessionState) (cfg : SimConfig) (i : Nat) (iv : Intervention),
      cfg.interventions[i]? = some iv → (cfg.totalFrames : Int) ≤ iv.frame →
      (∀ r ∈ (runSim sess0 cfg).recs, r.1 ≠ i) ∧
        (runSim sess0 cfg).metadata.interventions.length =
          cfg.interventions.length ∧
        (runSim sess0 cfg).metadata.interventions[i]? = some iv := by
  intro sess0 cfg i iv hi hf
  have hrecs : ∀ r ∈ (runSim sess0 cfg).recs, r.1 ≠ i := by
    intro r hr heq
    obtain ⟨f, hfmem, hpend, hfr⟩ :=
      runFrames_recs_mem cfg.timestepsPerFrame (sortIvs cfg.interventions)
        (List.range cfg.totalFrames) (initSession sess0 cfg).1
        (sortIvs cfg.interventions) r hr
    rw [heq] at hpend
    have h2 : cfg.interventions[i]? = some r.2.1 :=
      (sortIvs_mem cfg.interventions i r.2.1).mp hpend
    have h3 : r.2.1 = iv := by
      rw [hi] at h2
      exact (Option.some.inj h2).symm
    have h4 : f < cfg.totalFrames := List.mem_range.mp hfmem
    rw [h3] at hfr
    omega
  refine ⟨hrecs, ?_, ?_⟩
  · exact applyRecs_length _ _
  · show (applyRecs cfg.interventions (runSim sess0 cfg).recs)[i]? = some iv
    rw [applyRecs_getElem_ne i _ _ hrecs, hi]

def c10iv : Intervention :=
  { frame := 5, simulationTime := none, type := "brush",
    params := ⟨1, 1, "u", 1, 1⟩ }

def c10cfg : SimConfig :=
  { id := "a", preset := "p", options := [], totalFrames := 2,
    timestepsPerFrame := 3, interventions := [c10iv], outputDir := "o",
    randomSeed := none, resolution := none }

theorem claim_C10_witness :
    (runSim demoSess c10cfg).metadata.interventions[0]? = some c10iv :=
  (claim_C10_out_of_range demoSess c10cfg 0 c10iv (by rfl)
    (by show (2 : Int) ≤ 5; omega)).2.2

theorem initSession_seed_events (sess0 : SessionState) (cfg : SimConfig)
    (v : Int) (h : cfg.randomSeed = some v) :
    ∃ tail, (initSession sess0 cfg).2 =
      SEv.goto :: SEv.waitReady :: SEv.setSeed v :: tail := by
  by_cases ho : cfg.options = []
  · refine ⟨[SEv.reset], ?_⟩
    simp [initSession, h, ho]
  · refine ⟨cfg.options.map (fun kv => SEv.setOption kv.1 kv.2) ++
      [SEv.updateProblem] ++ [SEv.reset], ?_⟩
    simp [initSession, h, ho, List.append_assoc]

/-- C7: with a configured seed, the seed injection is the third remote
event of the run — right after navigation and the readiness wait — and in
particular strictly precedes every `setOption`, `updateProblem`, and
`reset` event. -/
theorem claim_C7_seed_before_init :
    ∀ (sess0 : SessionState) (cfg : SimConfig) (v : Int),
      cfg.randomSeed = some v →
      (runSim sess0 cfg).trace[2]? = some (SEv.setSeed v) ∧
      ∀ (j : Nat) (e : SEv), (runSim sess0 cfg).trace[j]? = some e →
        ((∃ k w, e = SEv.setOption k w) ∨ e = SEv.updateProblem ∨
          e = SEv.reset) → 2 < j := by
  intro sess0 cfg v h
  obtain ⟨tail, htail⟩ := initSession_seed_events sess0 cfg v h
  obtain ⟨rest, hrest⟩ : ∃ rest, (runSim sess0 cfg).trace =
      SEv.goto :: SEv.waitReady :: SEv.setSeed v :: rest := by
    have h0 : (runSim sess0 cfg).trace =
        (initSession sess0 cfg).2 ++
          ((runFrames cfg.timestepsPerFrame (sortIvs cfg.interventions)
            (initSession sess0 cfg).1 (sortIvs cfg.interventions)
            (List.range cfg.totalFrames)).evs ++
            [SEv.getOptions,
             SEv.getTime (getTimeS (runFrames cfg.timestepsPerFrame
               (sortIvs cfg.interventions) (initSession sess0 cfg).1
               (sortIvs cfg.interventions) (List.range cfg.totalFrames)).sess),
             SEv.writeMetadata]) := by
      rw [← List.append_assoc]
      rfl
    rw [htail] at h0
    exact ⟨_, by rw [h0]; simp only [List.cons_append]; rfl⟩
  constructor
  · rw [hrest]
    simp
  · intro j e hj he
    by_contra hle
    push_neg at hle
    interval_cases j <;>
      (rw [hrest] at hj
       simp only [List.getElem?_cons_zero, List.getElem?_cons_succ,
         Option.some.injEq] at hj
       subst hj
       rcases he with ⟨k, w, hk⟩ | hk | hk <;> simp at hk)

def c7cfg : SimConfig :=
  { id := "a", preset := "p", options := [("dt", "1")], totalFrames := 1,
    timestepsPerFrame := 2, interventions := [], outputDir := "o",
    randomSeed := some 42, resolution := none }

theorem claim_C7_witness :
    (runSim demoSess c7cfg).trace[2]? = some (SEv.setSeed 42) :=
  (claim_C7_seed_before_init demoSess c7cfg 42 rfl).1

theorem takeWhile_nil_of_false {α : Type} (p : α → Bool) :
    ∀ l : List α, (∀ x ∈ l, p x = false) → l.takeWhile p = [] := by
  intro l h
  cases l with
  | nil => rfl
  | cons a t =>
      rw [List.takeWhile_cons, h a (List.mem_cons_self _ _)]
      rfl

theorem takeWhile_append_true {α : Type} (p : α → Bool) :
    ∀ (l1 l2 : List α), (∀ x ∈ l1, p x = true) →
      (l1 ++ l2).takeWhile p = l1 ++ l2.takeWhile p := by
  intro l1
  induction l1 with
  | nil => intro l2 _; rfl
  | cons a t ih =>
      intro l2 h
      rw [List.cons_append, List.takeWhile_cons, h a (List.mem_cons_self _ _)]
      simp only [if_true, List.cons_append]
      rw [ih l2 (fun x hx => h x (List.mem_cons_of_mem _ hx))]

theorem pending_dropWhile_ge (a : Nat) :
    ∀ pending : List (Nat × Intervention),
      List.Pairwise (fun x y : Nat × Intervention =>
        x.2.frame ≤ y.2.frame) pending →
      (∀ p ∈ pending, (a : Int) ≤ p.2.frame) →
      ∀ q ∈ pending.dropWhile (fun p => p.2.frame == (a : Int)),
        (a : Int) + 1 ≤ q.2.frame := by
  intro pending
  induction pending with
  | nil => intro _ _ q hq; simp at hq
  | cons hd t ih =>
      intro hs hge q hq
      rw [List.dropWhile_cons] at hq
      by_cases hf : (hd.2.frame == (a : Int)) = true
      · rw [hf] at hq
        simp only [if_true] at hq
        exact ih hs.of_cons (fun p hp => hge p (List.mem_cons_of_mem _ hp)) q hq
      · rw [Bool.not_eq_true] at hf
        rw [hf] at hq
        simp only [Bool.false_eq_true, if_false] at hq
        have hne : hd.2.frame ≠ (a : Int) := by
          intro hc
          rw [beq_iff_eq.mpr hc] at hf
          exact Bool.true_eq_false.mp hf
        rcases List.mem_cons.mp hq with rfl | hq2
        · have := hge q (List.mem_cons_self _ _)
          omega
        · have h1 : hd.2.frame ≤ q.2.frame :=
            (List.pairwise_cons.mp hs).1 q hq2
          have h2 := hge hd (List.mem_cons_self _ _)
          omega

theorem foldl_setOption_dt (opts : List (String × String)) :
    ∀ s : SessionState,
      (opts.foldl (fun s kv => setOptionS s kv.1 kv.2) s).dt = s.dt := by
  induction opts with
  | nil => intro s; rfl
  | cons kv rest ih => intro s; exact ih _

theorem foldl_setOption_time (opts : List (String × String)) :
    ∀ s : SessionState,
      (opts.foldl (fun s kv => setOptionS s kv.1 kv.2) s).time = s.time := by
  induction opts with
  | nil => intro s; rfl
  | cons kv rest ih => intro s; exact ih _

theorem initSession_time (sess0 : SessionState) (cfg : SimConfig) :
    (initSession sess0 cfg).1.time = 0 := rfl

theorem initSession_dt (sess0 : SessionState) (cfg : SimConfig) :
    (initSession sess0 cfg).1.dt = sess0.dt := by
  unfold initSession
  cases hr : cfg.randomSeed <;>
    by_cases ho : cfg.options = [] <;>
      simp [resetS, hr, ho, updateProblemS, foldl_setOption_dt, setSeedS]

theorem runFrames_recs_spec (tpf : Nat) (sorted : List (Nat × Intervention)) :
    ∀ (k a : Nat) (st : SessionState) (pending : List (Nat × Intervention)),
      List.Pairwise (fun x y : Nat × Intervention =>
        x.2.frame ≤ y.2.frame) pending →
      (∀ p ∈ pending, (a : Int) ≤ p.2.frame) →
      (runFrames tpf sorted st pending (List.range' a k)).recs =
        (pending.takeWhile
            (fun p => decide (p.2.frame < (a : Int) + (k : Int)))).map
          (fun p => (p.1, p.2,
            st.time + (p.2.frame - (a : Int)) * ((tpf : Int) * st.dt))) ∧
      (runFrames tpf sorted st pending (List.range' a k)).sess.time =
        st.time + (k : Int) * ((tpf : Int) * st.dt) ∧
      (runFrames tpf sorted st pending (List.range' a k)).sess.dt = st.dt := by
  intro k
  induction k with
  | zero =>
      intro a st pending hs hge
      refine ⟨?_, by simp [runFrames], by simp [runFrames]⟩
      have h0 : pending.takeWhile
          (fun p => decide (p.2.frame < (a : Int) + ((0 : Nat) : Int))) = [] := by
        apply takeWhile_nil_of_false
        intro x hx
        have := hge x hx
        simp only [decide_eq_false_iff_not]
        push_cast
        omega
      rw [h0]
      simp [runFrames]
  | succ k ih =>
      intro a st pending hs hge
      obtain ⟨hA1, hA2, hA3, hA4, hA5⟩ := applyLoop_spec a pending st
      have hsorted2 := List.Pairwise.sublist
        (List.dropWhile_sublist (fun p : Nat × Intervention =>
          p.2.frame == (a : Int))) hs
      have hge2 : ∀ p ∈ pending.dropWhile (fun p => p.2.frame == (a : Int)),
          (((a + 1 : Nat)) : Int) ≤ p.2.frame := by
        intro p hp
        have := pending_dropWhile_ge a pending hs hge p hp
        push_cast
        omega
      have hst2t : (stepNS (applyLoop st pending a).sess tpf).time =
          st.time + (tpf : Int) * st.dt := by
        show (applyLoop st pending a).sess.time +
          (tpf : Int) * (applyLoop st pending a).sess.dt = _
        rw [hA1, hA2]
      have hst2d : (stepNS (applyLoop st pending a).sess tpf).dt = st.dt := hA2
      obtain ⟨ihr, iht, ihd⟩ := ih (a + 1)
        (stepNS (applyLoop st pending a).sess tpf)
        (pending.dropWhile (fun p => p.2.frame == (a : Int))) hsorted2 hge2
      have hsplit : pending.takeWhile
            (fun p => decide (p.2.frame < (a : Int) + ((k + 1 : Nat) : Int))) =
          pending.takeWhile (fun p => p.2.frame == (a : Int)) ++
            (pending.dropWhile (fun p => p.2.frame == (a : Int))).takeWhile
              (fun p => decide (p.2.frame < (a : Int) + ((k + 1 : Nat) : Int))) := by
        conv_lhs => rw [← List.takeWhile_append_dropWhile
          (fun p : Nat × Intervention => p.2.frame == (a : Int)) pending]
        apply takeWhile_append_true
        intro x hx
        have hfx := @List.mem_takeWhile_imp _
          (fun p : Nat × Intervention => p.2.frame == (a : Int)) pending x hx
        have hxa : x.2.frame = (a : Int) := beq_iff_eq.mp hfx
        rw [decide_eq_true_eq, hxa]
        push_cast
        omega
      have hpred : (fun p : Nat × Intervention =>
            decide (p.2.frame < ((a + 1 : Nat) : Int) + (k : Int))) =
          (fun p : Nat × Intervention =>
            decide (p.2.frame < (a : Int) + ((k + 1 : Nat) : Int))) := by
        funext p
        rw [decide_eq_decide]
        push_cast
        omega
      have hfun : (fun p : Nat × Intervention => (p.1, p.2,
            (stepNS (applyLoop st pending a).sess tpf).time +
              (p.2.frame - ((a + 1 : Nat) : Int)) *
                ((tpf : Int) * (stepNS (applyLoop st pending a).sess tpf).dt))) =
          (fun p : Nat × Intervention => (p.1, p.2,
            st.time + (p.2.frame - (a : Int)) * ((tpf : Int) * st.dt))) := by
        funext p
        rw [hst2t, hst2d]
        simp only [Prod.mk.injEq, true_and]
        push_cast
        ring
      rw [List.range'_succ a k 1]
      simp only [runFrames]
      rw [hA4]
      refine ⟨?_, ?_, ?_⟩
      · rw [hA3, ihr, hpred, hfun, hsplit, List.map_append]
        congr 1
        apply List.map_congr_left
        intro x hx
        have hfx := @List.mem_takeWhile_imp _
          (fun p : Nat × Intervention => p.2.frame == (a : Int)) pending x hx
        have hxa : x.2.frame = (a : Int) := beq_iff_eq.mp hfx
        rw [hxa]
        simp
      · rw [iht, hst2t, hst2d]
        push_cast
        ring
      · rw [ihd, hst2d]

def isStepEv : SEv → Bool
  | .stepN _ => true
  | _ => false

/-- Number of `stepN` remote calls in an event list: event position `p` is
"before frame `f`'s stepping" exactly when `f` such calls precede it. -/
def stepCount (l : List SEv) : Nat := l.countP isStepEv

theorem stepCount_append (l1 l2 : List SEv) :
    stepCount (l1 ++ l2) = stepCount l1 + stepCount l2 :=
  List.countP_append _ _ _

theorem stepCount_gList (t : Int) :
    ∀ l : List (Nat × Intervention),
      stepCount (l.flatMap (fun p => brushEvs p.2 ++ [SEv.getTime t])) = 0 := by
  intro l
  rw [stepCount, List.countP_eq_zero]
  intro e he
  obtain ⟨p, -, hp⟩ := List.mem_flatMap.mp he
  rw [List.mem_append] at hp
  rcases hp with hp | hp
  · unfold brushEvs at hp
    split at hp
    · simp only [List.mem_singleton] at hp
      subst hp
      simp [isStepEv]
    · simp at hp
  · simp only [List.mem_singleton] at hp
    subst hp
    simp [isStepEv]

theorem getElem?_append_cons {α : Type} (l : List α) (x : α) (r : List α) :
    (l ++ x :: r)[l.length]? = some x := by
  rw [List.getElem?_append_right (Nat.le_refl _)]
  simp

theorem runFrames_applyPos (tpf : Nat) (sorted : List (Nat × Intervention)) :
    ∀ (k a : Nat) (st : SessionState) (pending : List (Nat × Intervention)),
      List.Pairwise (fun x y : Nat × Intervention =>
        x.2.frame ≤ y.2.frame) pending →
      (∀ p ∈ pending, (a : Int) ≤ p.2.frame) →
      ∀ (i : Nat) (iv : Intervention) (f : Nat),
        (i, iv) ∈ pending → iv.type = "brush" → iv.frame = (f : Int) →
        a ≤ f → f < a + k →
        ∃ p, (runFrames tpf sorted st pending (List.range' a k)).evs[p]? =
            some (SEv.applyBrush iv.params) ∧
          stepCount ((runFrames tpf sorted st pending
            (List.range' a k)).evs.take p) = f - a := by
  intro k
  induction k with
  | zero =>
      intro a st pending _ _ i iv f _ _ _ hf1 hf2
      omega
  | succ k ih =>
      intro a st pending hs hge i iv f hmem htype hfr hf1 hf2
      obtain ⟨hA1, hA2, hA3, hA4, hA5⟩ := applyLoop_spec a pending st
      rw [List.range'_succ a k 1]
      simp only [runFrames]
      by_cases hfa : f = a
      · -- applied in this frame's while loop
        subst hfa
        have hmemtw : (i, iv) ∈ pending.takeWhile
            (fun p => p.2.frame == (f : Int)) := by
          have hsplit := List.takeWhile_append_dropWhile
            (fun p : Nat × Intervention => p.2.frame == (f : Int)) pending
          rw [← hsplit, List.mem_append] at hmem
          rcases hmem with h | h
          · exact h
          · have := pending_dropWhile_ge f pending hs hge (i, iv) h
            rw [hfr] at this
            omega
        obtain ⟨l1, l2, hl⟩ := List.append_of_mem hmemtw
        have hE1 : (applyLoop st pending f).evs =
            (l1.flatMap (fun p => brushEvs p.2 ++ [SEv.getTime st.time])) ++
              (SEv.applyBrush iv.params ::
                (SEv.getTime st.time ::
                  l2.flatMap (fun p => brushEvs p.2 ++ [SEv.getTime st.time]))) := by
          rw [hA5, hl, List.flatMap_append, List.flatMap_cons]
          have hb : brushEvs iv = [SEv.applyBrush iv.params] := by
            unfold brushEvs
            rw [if_pos htype]
          rw [hb]
          simp
        refine ⟨(l1.flatMap (fun p => brushEvs p.2 ++
          [SEv.getTime st.time])).length, ?_, ?_⟩
        · rw [hE1]
          simp only [List.append_assoc, List.cons_append]
          exact getElem?_append_cons _ _ _
        · rw [hE1]
          simp only [List.append_assoc, List.cons_append]
          rw [List.take_left, stepCount_gList]
          omega
      · -- applied in a later frame
        have hf1b : a + 1 ≤ f := by omega
        have hmemdw : (i, iv) ∈ pending.dropWhile
            (fun p => p.2.frame == (a : Int)) := by
          have hsplit := List.takeWhile_append_dropWhile
            (fun p : Nat × Intervention => p.2.frame == (a : Int)) pending
          rw [← hsplit, List.mem_append] at hmem
          rcases hmem with h | h
          · have hfx := @List.mem_takeWhile_imp _
              (fun p : Nat × Intervention => p.2.frame == (a : Int)) pending
              (i, iv) h
            have : iv.frame = (a : Int) := beq_iff_eq.mp hfx
            rw [hfr] at this
            have : f = a := by exact_mod_cast this
            exact absurd this hfa
          · exact h
        have hsorted2 := List.Pairwise.sublist
          (List.dropWhile_sublist (fun p : Nat × Intervention =>
            p.2.frame == (a : Int))) hs
        have hge2 : ∀ p ∈ pending.dropWhile (fun p => p.2.frame == (a : Int)),
            (((a + 1 : Nat)) : Int) ≤ p.2.frame := by
          intro p hp
          have := pending_dropWhile_ge a pending hs hge p hp
          push_cast
          omega
        obtain ⟨p2, hp2a, hp2b⟩ := ih (a + 1)
          (stepNS (applyLoop st pending a).sess tpf)
          (pending.dropWhile (fun p => p.2.frame == (a : Int)))
          hsorted2 hge2 i iv f hmemdw htype hfr hf1b (by omega)
        rw [hA4]
        refine ⟨((applyLoop st pending a).evs ++
          [SEv.stepN tpf, SEv.render, SEv.captureFrame,
            SEv.saveFrame (frameFileName a),
            SEv.getTime (getTimeS (stepNS (applyLoop st pending a).sess
              tpf))]).length + p2, ?_, ?_⟩
        · rw [List.getElem?_append_right (by omega)]
          simpa using hp2a
        · rw [List.take_append, stepCount_append]
          rw [hp2b, stepCount_append, hA5, stepCount_gList]
          have hmid : stepCount [SEv.stepN tpf, SEv.render, SEv.captureFrame,
              SEv.saveFrame (frameFileName a),
              SEv.getTime (getTimeS (stepNS (applyLoop st pending a).sess
                tpf))] = 1 := rfl
          rw [hmid]
          omega

theorem mem_takeWhile_of_pairwise {α : Type} (R : α → α → Prop)
    (pred : α → Bool) :
    ∀ l : List α, List.Pairwise R l →
      (∀ x y, R x y → pred y = true → pred x = true) →
      ∀ x ∈ l, pred x = true → x ∈ l.takeWhile pred := by
  intro l
  induction l with
  | nil => intro _ _ x hx; simp at hx
  | cons h t ih =>
      intro hp hmono x hx hpx
      rcases List.mem_cons.mp hx with rfl | hx2
      · simp only [List.takeWhile_cons, hpx, if_true]
        exact List.mem_cons_self _ _
      · have hph : pred h = true :=
          hmono h x ((List.pairwise_cons.mp hp).1 x hx2) hpx
        simp only [List.takeWhile_cons, hph, if_true]
        exact List.mem_cons_of_mem _ (ih hp.of_cons hmono x hx2 hpx)

theorem stepCount_initSession (sess0 : SessionState) (cfg : SimConfig) :
    stepCount (initSession sess0 cfg).2 = 0 := by
  unfold initSession
  cases hr : cfg.randomSeed <;> by_cases ho : cfg.options = [] <;>
    simp [stepCount, ho, List.countP_cons, List.countP_append,
      List.countP_map, isStepEv, Function.comp]

def simEvs (sess0 : SessionState) (cfg : SimConfig) : List SEv :=
  (runFrames cfg.timestepsPerFrame (sortIvs cfg.interventions)
    (initSession sess0 cfg).1 (sortIvs cfg.interventions)
    (List.range cfg.totalFrames)).evs

def simTailEvs (sess0 : SessionState) (cfg : SimConfig) : List SEv :=
  [SEv.getOptions,
   SEv.getTime (getTimeS (runFrames cfg.timestepsPerFrame
     (sortIvs cfg.interventions) (initSession sess0 cfg).1
     (sortIvs cfg.interventions) (List.range cfg.totalFrames)).sess),
   SEv.writeMetadata]

theorem runSim_trace_eq (sess0 : SessionState) (cfg : SimConfig) :
    (runSim sess0 cfg).trace =
      ((initSession sess0 cfg).2 ++ simEvs sess0 cfg) ++
        simTailEvs sess0 cfg := rfl

/-- C3: when all configured interventions have non-negative frames (and are
of the only variant, `"brush"`), (a) interventions are applied in
non-decreasing frame order, and (b) each intervention scheduled at a frame
`f < totalFrames` is applied: its mutation record carries the session time
at application — the pre-step time `f * timestepsPerFrame * dt` of frame
`f`, not the post-step one — and its `applyBrush` call sits in the remote
trace at a position preceded by exactly `f` `stepN` calls, i.e. strictly
before frame `f`'s own step/render/capture. -/
theorem claim_C3_intervention_order :
    ∀ (sess0 : SessionState) (cfg : SimConfig),
      (∀ iv ∈ cfg.interventions, 0 ≤ iv.frame) →
      (∀ iv ∈ cfg.interventions, iv.type = "brush") →
      List.Pairwise (fun r1 r2 : Nat × Intervention × Int =>
        r1.2.1.frame ≤ r2.2.1.frame) (runSim sess0 cfg).recs ∧
      ∀ (i : Nat) (iv : Intervention) (f : Nat),
        cfg.interventions[i]? = some iv → iv.frame = (f : Int) →
        f < cfg.totalFrames →
        ((i, iv, (f : Int) * ((cfg.timestepsPerFrame : Int) * sess0.dt)) ∈
            (runSim sess0 cfg).recs ∧
          ∃ p, (runSim sess0 cfg).trace[p]? =
              some (SEv.applyBrush iv.params) ∧
            stepCount ((runSim sess0 cfg).trace.take p) = f) := by
  intro sess0 cfg hpos htype
  have hsorted := sortIvs_sorted cfg.interventions
  have hmemiv : ∀ p : Nat × Intervention, p ∈ sortIvs cfg.interventions →
      p.2 ∈ cfg.interventions := by
    intro p hp
    have h1 : cfg.interventions[p.1]? = some p.2 :=
      (sortIvs_mem cfg.interventions p.1 p.2).mp hp
    obtain ⟨hlt, heq⟩ := List.getElem?_eq_some.mp h1
    rw [← heq]
    exact List.getElem_mem _
  have hge0 : ∀ p ∈ sortIvs cfg.interventions,
      (((0 : Nat)) : Int) ≤ p.2.frame := by
    intro p hp
    have := hpos p.2 (hmemiv p hp)
    simpa using this
  have hspec := runFrames_recs_spec cfg.timestepsPerFrame
    (sortIvs cfg.interventions) cfg.totalFrames 0 (initSession sess0 cfg).1
    (sortIvs cfg.interventions) hsorted hge0
  have hrecs : (runSim sess0 cfg).recs =
      ((sortIvs cfg.interventions).takeWhile
          (fun p => decide (p.2.frame <
            ((0 : Nat) : Int) + (cfg.totalFrames : Int)))).map
        (fun p => (p.1, p.2,
          (initSession sess0 cfg).1.time +
            (p.2.frame - ((0 : Nat) : Int)) *
              ((cfg.timestepsPerFrame : Int) * (initSession sess0 cfg).1.dt))) := by
    rw [show (runSim sess0 cfg).recs =
      (runFrames cfg.timestepsPerFrame (sortIvs cfg.interventions)
        (initSession sess0 cfg).1 (sortIvs cfg.interventions)
        (List.range cfg.totalFrames)).recs from rfl, List.range_eq_range']
    exact hspec.1
  constructor
  · rw [hrecs]
    exact List.Pairwise.map _ (fun a b h => h)
      (List.Pairwise.sublist (List.takeWhile_sublist _) hsorted)
  · intro i iv f hgetl hfr hlt
    have hmemsorted : (i, iv) ∈ sortIvs cfg.interventions :=
      (sortIvs_mem cfg.interventions i iv).mpr hgetl
    have hivmem : iv ∈ cfg.interventions := hmemiv (i, iv) hmemsorted
    constructor
    · have hmemtw : (i, iv) ∈ (sortIvs cfg.interventions).takeWhile
          (fun p => decide (p.2.frame <
            ((0 : Nat) : Int) + (cfg.totalFrames : Int))) := by
        apply mem_takeWhile_of_pairwise
          (fun x y : Nat × Intervention => x.2.frame ≤ y.2.frame) _ _ hsorted
        · intro x y hxy hy
          rw [decide_eq_true_eq] at hy ⊢
          omega
        · exact hmemsorted
        · rw [decide_eq_true_eq, hfr]
          push_cast
          omega
      have hval : ((fun p : Nat × Intervention => (p.1, p.2,
          (initSession sess0 cfg).1.time +
            (p.2.frame - ((0 : Nat) : Int)) *
              ((cfg.timestepsPerFrame : Int) *
                (initSession sess0 cfg).1.dt))) (i, iv)) =
          (i, iv, (f : Int) * ((cfg.timestepsPerFrame : Int) * sess0.dt)) := by
        simp only [Prod.mk.injEq, true_and]
        rw [initSession_time, initSession_dt, hfr]
        push_cast
        ring
      rw [hrecs, ← hval]
      exact List.mem_map_of_mem _ hmemtw
    · obtain ⟨p2, hp2a, hp2b⟩ := runFrames_applyPos cfg.timestepsPerFrame
        (sortIvs cfg.interventions) cfg.totalFrames 0 (initSession sess0 cfg).1
        (sortIvs cfg.interventions) hsorted hge0 i iv f hmemsorted
        (htype iv hivmem) hfr (by omega) (by omega)
      rw [← List.range_eq_range'] at hp2a hp2b
      have hlen : p2 < (simEvs sess0 cfg).length :=
        (List.getElem?_eq_some.mp hp2a).1
      refine ⟨(initSession sess0 cfg).2.length + p2, ?_, ?_⟩
      · rw [runSim_trace_eq]
        rw [List.getElem?_append_left (by
          simp only [List.length_append]
          omega)]
        rw [List.getElem?_append_right (by omega)]
        have hidx : (initSession sess0 cfg).2.length + p2 -
            (initSession sess0 cfg).2.length = p2 := by omega
        rw [hidx]
        exact hp2a
      · rw [runSim_trace_eq, List.append_assoc, List.take_append,
          stepCount_append, stepCount_initSession]
        rw [List.take_append_of_le_length (by omega)]
        have hp2c : stepCount (List.take p2 (simEvs sess0 cfg)) = f - 0 := hp2b
        rw [hp2c]
        omega

def c3iv : Intervention :=
  { frame := 0, simulationTime := none, type := "brush",
    params := ⟨1, 2, "u", 3, 4⟩ }

def c3cfg : SimConfig :=
  { id := "a", preset := "p", options := [], totalFrames := 1,
    timestepsPerFrame := 2, interventions := [c3iv], outputDir := "o",
    randomSeed := none, resolution := none }

theorem claim_C3_witness :
    ((0 : Nat), c3iv, (0 : Int)) ∈ (runSim demoSess c3cfg).recs := by
  have h := (claim_C3_intervention_order demoSess c3cfg
    (by intro iv hiv; simp only [c3cfg, List.mem_singleton] at hiv;
        subst hiv; decide)
    (by intro iv hiv; simp only [c3cfg, List.mem_singleton] at hiv;
        subst hiv; rfl)).2 0 c3iv 0 rfl rfl (by decide)
  simpa using h.1
